import Mathlib

/-!
Verification of the kolam generation engine (`api/kolam_algorithm_fixed.py`,
`api/generate.py`).

The Python code is shallowly embedded: the gate matrix `A` and flag matrix `F`
become total functions `ℕ → ℕ → ℚ` (numpy float entries are modelled as exact
rationals; every value the program ever stores in them is the integer
`0`, `1` or `99`, so all threshold comparisons `< 0.1`, `> 0.5`, `> 0.9`
coincide with their float counterparts).  The single numpy pseudo-random
source is modelled as an explicit stream `r : ℕ → ℕ` of raw `randint`
outputs together with a cursor `k` that each consumer advances.
`NextStep`'s gate lookup models numpy indexing faithfully: a negative index
down to `-Nx` wraps around once, anything further out of range raises
`IndexError`, which we model by propagating `Option.none`.
-/

namespace Kolam

/- `Rat.mul`, `Rat.add`, `Rat.sub` and `Rat.inv` are `@[irreducible]` in
Batteries, which blocks `decide`-style evaluation of concrete program runs;
restore the default reducibility inside this development. -/
attribute [local semireducible] Rat.mul Rat.add Rat.sub Rat.inv

/-- A gate / flag matrix: total function from (row, column) to the stored
rational value.  The live region is the `Nx × Nx` block. -/
abbrev Mat := ℕ → ℕ → ℚ

/-- Single in-place store `M[i, j] = v`. -/
def mset (M : Mat) (i j : ℕ) (v : ℚ) : Mat :=
  fun p q => if p = i ∧ q = j then v else M p q

/-- Chained numpy store `M[a1,b1] = M[a2,b2] = M[a3,b3] = M[a4,b4] = v`. -/
def mset4 (M : Mat) (a1 b1 a2 b2 a3 b3 a4 b4 : ℕ) (v : ℚ) : Mat :=
  mset (mset (mset (mset M a1 b1 v) a2 b2 v) a3 b3 v) a4 b4 v

/-- Boundary profile (`boundary_type` string in the source).  The three
profiles whose membership test uses floating-point trigonometry
(`fish`, `waves`, `organic`) are abstracted as an arbitrary boolean
predicate carried by the `other` constructor; `diamond`, `corners` and
`fractal` are modelled exactly. -/
inductive Boundary where
  | diamond
  | corners
  | fractal
  | other (p : ℕ → ℕ → Bool)

/-- `boundary_type == 'diamond'` test used by `ResetGateMatrix`. -/
def Boundary.isDiamond : Boundary → Bool
  | .diamond => true
  | _ => false

/-- The `KolamDraw` session object.  `A1`/`F1` of `__init__` are the constant
matrices `fun _ _ => 99` / `fun _ _ => 1` below; `A`/`F` are the mutable
`self.A`/`self.F` fields (unset before the first `Dice` call in Python;
initialised here to the `A1`/`F1` copies). -/
structure KolamDraw where
  ND : ℕ
  boundary : Boundary
  A : Mat
  F : Mat

/-- `self.Nx = ND + 1`. -/
def KolamDraw.Nx (s : KolamDraw) : ℕ := s.ND + 1

/-- `self.Ns = (2 * ND**2 + 1) * 5`. -/
def KolamDraw.Ns (s : KolamDraw) : ℕ := (2 * s.ND ^ 2 + 1) * 5

/-- Fresh session: `KolamDraw(ND)` followed by `set_boundary(b)`. -/
def KolamDraw.init (ND : ℕ) (b : Boundary) : KolamDraw :=
  { ND := ND, boundary := b, A := fun _ _ => 99, F := fun _ _ => 1 }

/-- `is_inside_boundary(i, j)` for the exactly-modelled profiles.
Coordinates are re-centered as `x = i - ND`, `y = j - ND` (signed). -/
def is_inside_boundary (s : KolamDraw) (i j : ℕ) : Bool :=
  let x : ℤ := (i : ℤ) - s.ND
  let y : ℤ := (j : ℤ) - s.ND
  match s.boundary with
  | .diamond => true
  | .corners =>
      -- threshold = ND * 0.3; active iff |x| >= threshold and |y| >= threshold
      decide ((s.ND : ℚ) * (3 / 10) ≤ (|x| : ℤ) ∧ (s.ND : ℚ) * (3 / 10) ≤ (|y| : ℤ))
  | .fractal =>
      -- xi = |x| + ND, yi = |y| + ND; active iff (xi AND yi) % 4 < 2
      decide ((((|x| + s.ND).toNat) &&& ((|y| + s.ND).toNat)) % 4 < 2)
  | .other p => p i j

/-- One pass of the border loop of `ResetGateMatrix`:
`A[0,i] = A[i,0] = A[Nx-1,i] = A[i,Nx-1] = 0` and the same for `F`. -/
def borderStep (Nx : ℕ) (AF : Mat × Mat) (i : ℕ) : Mat × Mat :=
  (mset4 AF.1 0 i i 0 (Nx - 1) i i (Nx - 1) 0,
   mset4 AF.2 0 i i 0 (Nx - 1) i i (Nx - 1) 0)

/-- One pass of the diagonal loop of `ResetGateMatrix`:
`A[i,i] = A[i,Nx-1-i] = 1`, `F[i,i] = F[i,Nx-1-i] = 0`. -/
def diagStep (Nx : ℕ) (AF : Mat × Mat) (i : ℕ) : Mat × Mat :=
  (mset (mset AF.1 i i 1) i (Nx - 1 - i) 1,
   mset (mset AF.2 i i 0) i (Nx - 1 - i) 0)

/-- One pass of the custom-boundary mask loop of `ResetGateMatrix`:
cells outside the active boundary are forced to `A = 0`, `F = 0`. -/
def maskStep (s : KolamDraw) (AF : Mat × Mat) (ij : ℕ × ℕ) : Mat × Mat :=
  if is_inside_boundary s ij.1 ij.2 then AF
  else (mset AF.1 ij.1 ij.2 0, mset AF.2 ij.1 ij.2 0)

/-- Row-major list of all index pairs of the `Nx × Nx` block. -/
def allPairs (Nx : ℕ) : List (ℕ × ℕ) :=
  (List.range Nx).flatMap fun i => (List.range Nx).map fun j => (i, j)

/-- `ResetGateMatrix()`: start from copies of `A1`/`F1`, close the border,
open the two main diagonals, then apply the boundary mask when the profile
is not `diamond`. -/
def ResetGateMatrix (s : KolamDraw) : Mat × Mat :=
  let AF0 : Mat × Mat := (fun _ _ => 99, fun _ _ => 1)
  let AF1 := (List.range s.Nx).foldl (borderStep s.Nx) AF0
  let AF2 := (List.range' 1 (s.Nx - 2)).foldl (diagStep s.Nx) AF1
  if s.boundary.isDiamond then AF2
  else (allPairs s.Nx).foldl (maskStep s) AF2

/-- `toss(bias)`: draw `x = randint(0, 1000) / 1000` from the random stream
and return `1` if `x > bias` else `0`.  `rv` is the raw stream value. -/
def toss (bias : ℚ) (rv : ℕ) : ℚ :=
  if ((rv % 1000 : ℕ) : ℚ) / 1000 > bias then 1 else 0

/-- Instrumentation record: one gate-value store of `AssignGates` to a
primary cell `(p, q)` (the three symmetric copies are stored with it).
`nbSum` is the sum `A[p-1,q-1] + A[p-1,q] + A[p,q-1]` of the three
already-assigned neighbours immediately above/left of the cell, read at the
moment of the store; `value` is the value stored. -/
structure AsgEv where
  p : ℕ
  q : ℕ
  nbSum : ℚ
  value : ℚ
  deriving DecidableEq

/-- Loop state of `AssignGates` (plus the ghost event list `evs`). -/
structure AsgSt where
  A : Mat
  F : Mat
  errAckr : ℚ
  count1 : ℚ
  count01 : ℚ
  kr : ℚ
  k : ℕ
  evs : List AsgEv

/-- The neighbour sum recorded with an assignment event (see `AsgEv`). -/
def nbOf (A : Mat) (p q : ℕ) : ℚ := A (p - 1) (q - 1) + A (p - 1) q + A p (q - 1)

/-- Common code of the four assignment sites of `AssignGates`: store `v`
over the chained 4-cell group `(a1,b1),(a2,b2),(a3,b3),(a4,b4)` of `A`,
clear `F` there, bump the pair counter `count01`, log the event for the
primary cell `(p0, q0)`, and bump the open counter `count1` when the
freshly stored cell reads `> 0.9`. -/
def storeGroup (st : AsgSt) (a1 b1 a2 b2 a3 b3 a4 b4 p0 q0 : ℕ) (nb v : ℚ) : AsgSt :=
  let st2 : AsgSt := { st with
    A := mset4 st.A a1 b1 a2 b2 a3 b3 a4 b4 v
    F := mset4 st.F a1 b1 a2 b2 a3 b3 a4 b4 0
    count01 := st.count01 + 4
    evs := st.evs ++ [⟨p0, q0, nb, v⟩] }
  if st2.A p0 q0 > 9 / 10 then { st2 with count1 := st2.count1 + 4 } else st2

/-- Source block under `F[i,j] == 1`, `F[i,j+1] == 1`: assign the group of
`(i,j)` by a plain toss (consuming one stream value), then the coupled
group of `(i,j+1)` with the anti-isolation check (consuming one more
stream value only when the check fails). -/
def asgSite12 (s : KolamDraw) (kr : ℚ) (r : ℕ → ℕ) (i j : ℕ) (st : AsgSt) : AsgSt :=
  let Nx1 := s.Nx - 1
  let st1 := storeGroup { st with k := st.k + 1 } i j j i
    (Nx1 - i) (Nx1 - j) (Nx1 - j) (Nx1 - i) i j (nbOf st.A i j) (toss kr (r st.k))
  -- if A[i-1,j] + A[i-1,j+1] + A[i,j] < 0.1: x = 1 else x = toss(kr)
  let sum := st1.A (i - 1) j + st1.A (i - 1) (j + 1) + st1.A i j
  let x := if sum < 1 / 10 then (1 : ℚ) else toss kr (r st1.k)
  let k2 := if sum < 1 / 10 then st1.k else st1.k + 1
  storeGroup { st1 with k := k2 } i (j + 1) (j + 1) i
    (Nx1 - i) (Nx1 - 1 - j) (Nx1 - 1 - j) (Nx1 - i) i (j + 1) sum x

/-- Source block under `F[i,j] == 1` followed by `F[i,j+1] == 0`:
reassign the group of `(i,j)`, the check reading the right-hand
neighbour `A[i,j+1]`. -/
def asgSite3 (s : KolamDraw) (kr : ℚ) (r : ℕ → ℕ) (i j : ℕ) (st : AsgSt) : AsgSt :=
  let Nx1 := s.Nx - 1
  -- if A[i-1,j] + A[i-1,j+1] + A[i,j+1] < 0.1: x = 1 else x = toss(kr)
  let sum := st.A (i - 1) j + st.A (i - 1) (j + 1) + st.A i (j + 1)
  let x := if sum < 1 / 10 then (1 : ℚ) else toss kr (r st.k)
  let k2 := if sum < 1 / 10 then st.k else st.k + 1
  storeGroup { st with k := k2 } i j j i
    (Nx1 - i) (Nx1 - j) (Nx1 - j) (Nx1 - i) i j (nbOf st.A i j) x

/-- Source block under `F[i,j] == 0`, `F[i,j+1] == 1`: assign the group of
`(i,j+1)` with the anti-isolation check on its above/left neighbours
`A[i-1,j] + A[i-1,j+1] + A[i,j]`. -/
def asgSite4 (s : KolamDraw) (kr : ℚ) (r : ℕ → ℕ) (i j : ℕ) (st : AsgSt) : AsgSt :=
  let Nx1 := s.Nx - 1
  -- if A[i-1,j] + A[i-1,j+1] + A[i,j] < 0.1: x = 1 else x = toss(kr)
  let sum := st.A (i - 1) j + st.A (i - 1) (j + 1) + st.A i j
  let x := if sum < 1 / 10 then (1 : ℚ) else toss kr (r st.k)
  let k2 := if sum < 1 / 10 then st.k else st.k + 1
  storeGroup { st with k := k2 } i (j + 1) (j + 1) i
    (Nx1 - i) (Nx1 - 1 - j) (Nx1 - 1 - j) (Nx1 - i) i (j + 1) sum x

/-- The PI-controller update at the top of each `AssignGates` loop
iteration: recompute `errkr`, accumulate `errAckr`, store the effective
ratio `kr`.  Leaves the matrices untouched. -/
def asgPI (krRef Kp Ki : ℚ) (st : AsgSt) : AsgSt :=
  let errkr := krRef - st.count1 / st.count01
  let errAckr := st.errAckr + errkr
  { st with errAckr := errAckr, kr := krRef + Kp * errkr + Ki * errAckr }

/-- The branch structure of one `AssignGates` loop iteration: the two
sequential `if F[i,j] == 1` / `if F[i,j] == 0` tests (the second re-reads
the flag matrix mutated by the first), each with its inner sequential pair
of `F[i,j+1]` tests. -/
def asgDispatch (s : KolamDraw) (kr : ℚ) (r : ℕ → ℕ) (i j : ℕ) (st : AsgSt) : AsgSt :=
  -- if F[i, j] == 1:
  let st : AsgSt :=
    if st.F i j = 1 then
      let st : AsgSt := if st.F i (j + 1) = 1 then asgSite12 s kr r i j st else st
      if st.F i (j + 1) = 0 then asgSite3 s kr r i j st else st
    else st
  -- if F[i, j] == 0:
  if st.F i j = 0 then
    if st.F i (j + 1) = 1 then asgSite4 s kr r i j st else st
  else st

/-- Loop body of `AssignGates` at quadrant position `(i, j)`. -/
def asgBody (s : KolamDraw) (krRef Kp Ki : ℚ) (r : ℕ → ℕ)
    (st : AsgSt) (ij : ℕ × ℕ) : AsgSt :=
  let st2 := asgPI krRef Kp Ki st
  asgDispatch s st2.kr r ij.1 ij.2 st2

/-- The row-major quadrant index pairs visited by `AssignGates`:
`i in range(1, Nx2)`, `j in range(i, Nx - i)`. -/
def asgPairs (Nx : ℕ) : List (ℕ × ℕ) :=
  (List.range' 1 (Nx / 2 - 1)).flatMap fun i =>
    (List.range' i (Nx - 2 * i)).map fun j => (i, j)

/-- `AssignGates(krRef, Kp, Ki)`: reset the matrices, then run the
PI-controlled quadrant sweep.  The stream cursor starts at `k`.
(`kr` is first assigned inside the loop; the `0` placeholder is never
returned for the non-degenerate sizes the program runs with.) -/
def AssignGates (s : KolamDraw) (krRef Kp Ki : ℚ) (r : ℕ → ℕ) (k : ℕ) : AsgSt :=
  let AF := ResetGateMatrix s
  (asgPairs s.Nx).foldl (asgBody s krRef Kp Ki r)
    { A := AF.1, F := AF.2, errAckr := 0, count1 := 0, count01 := 1,
      kr := 0, k := k, evs := [] }

/-- Numpy 1-axis index resolution for axis length `Nx`: indices in
`[0, Nx)` are used as-is, indices in `[-Nx, 0)` wrap around once, anything
else raises `IndexError` (modelled as `none`). -/
def npIdx (Nx : ℕ) (i : ℤ) : Option ℕ :=
  if 0 ≤ i ∧ i < (Nx : ℤ) then some i.toNat
  else if -(Nx : ℤ) ≤ i ∧ i < 0 then some (i + Nx).toNat
  else none

/-- Numpy 2-D element read `M[i, j]` on the `Nx × Nx` matrix `M`. -/
def npGet (M : Mat) (Nx : ℕ) (i j : ℤ) : Option ℚ :=
  match npIdx Nx i, npIdx Nx j with
  | some a, some b => some (M a b)
  | _, _ => none

/-- The halved shifted gate index `int(floor((icg + ND) / 2))` used by
`NextStep` to address the gate matrix. -/
def gateIdx (ND : ℕ) (icg : ℤ) : ℤ := Int.fdiv (icg + ND) 2

/-- `NextStep(icg, jcg, ce)`: one transition of the path automaton.
Returns `(ing, jng, ne, ingp, jngp)`; `none` models the `IndexError`
raised when the gate lookup leaves the matrix. -/
def NextStep (s : KolamDraw) (icg jcg ce : ℤ) : Option (ℤ × ℤ × ℤ × ℚ × ℚ) :=
  let icgx : ℤ := icg + s.ND
  let jcx : ℤ := jcg + s.ND
  let icgx2 := gateIdx s.ND icg
  let jcx2 := gateIdx s.ND jcg
  let calpha : ℤ := ce % 2
  let cbeta : ℤ := if ce > 1 then -1 else 1
  let cgamma : ℤ := if (icgx + jcx) % 4 = 0 then -1 else 1
  match npGet s.A s.Nx icgx2 jcx2 with
  | none => none
  | some g =>
    let cg : ℤ := if g > 1 / 2 then 1 else 0
    let cgd := 1 - cg
    let calphad := 1 - calpha
    let nalpha := cg * calpha + cgd * calphad
    let nbeta := (cg + cgd * cgamma) * cbeta
    let nh := (calphad * cgamma * cgd + calpha * cg) * cbeta
    let nv := (calpha * cgamma * cgd + calphad * cg) * cbeta
    let ing := icg + nh * 2
    let jng := jcg + nv * 2
    let ingp : ℚ := icg + cgd * (calphad * cgamma - calpha) * cbeta * (1 / 2)
    let jngp : ℚ := jcg + cgd * (calpha * cgamma - calphad) * cbeta * (1 / 2)
    let ne : ℤ :=
      if nalpha = 0 ∧ nbeta = 1 then 0
      else if nalpha = 0 then 2
      else if nbeta = 1 then 1
      else 3
    some (ing, jng, ne, ingp, jngp)

/-- The cycle-search loop shared by `PathCount` and the per-trial trace of
`Dice`: starting from `(i0, j0)` with code `0`, step while `isa < Ns - 2`,
breaking with the step index as soon as the state returns to the start
state.  `fuel = (Ns - 2) - isa`.  Returns `isx` (`0` when no repeat was
found) or `none` on `IndexError`. -/
def pcLoop (s : KolamDraw) (i0 j0 : ℤ) : ℕ → (ℤ × ℤ × ℤ) → ℕ → Option ℕ
  | 0, _, _ => some 0
  | fuel + 1, cur, isa =>
    match NextStep s cur.1 cur.2.1 cur.2.2 with
    | none => none
    | some (ing, jng, ne, _, _) =>
      if ing = i0 ∧ jng = j0 ∧ ne = 0 then some (isa + 1)
      else pcLoop s i0 j0 fuel (ing, jng, ne) (isa + 1)

/-- Cycle search from `(i0, j0)` with code `0` (the body of `PathCount`
after the random start has been drawn; also the trial evaluation loop of
`Dice`, which starts from `(1, 1)`). -/
def traceCycle (s : KolamDraw) (i0 j0 : ℤ) : Option ℕ :=
  pcLoop s i0 j0 (s.Ns - 2) (i0, j0, 0) 0

/-- The random start corner of `PathCount`:
`ijcx[0,·] = 2 * randint(0, 2) - 1` for each coordinate. -/
def pcStart (r : ℕ → ℕ) (k : ℕ) : ℤ × ℤ :=
  (2 * ((r k % 2 : ℕ) : ℤ) - 1, 2 * ((r (k + 1) % 2 : ℕ) : ℤ) - 1)

/-- `PathCount()`: length of the path cycle from a random diagonal corner,
`0` if the path does not come back within the `Ns - 2` step budget.
Consumes two raw values from the random stream. -/
def PathCount (s : KolamDraw) (r : ℕ → ℕ) (k : ℕ) : Option ℕ :=
  let st := pcStart r k
  traceCycle s st.1 st.2

/-- `SwitchGate(ig, jg)`: toggle the four-fold symmetric gate group of
`(ig, jg)` on copies of `self.A` / `self.F`; `Flag` reports the direction
of the toggle (`0` when the stored value was neither `< 0.1` nor `> 0.9`). -/
def SwitchGate (s : KolamDraw) (ig jg : ℕ) : Mat × Mat × ℤ :=
  let Nx := s.Nx
  if s.A ig jg < 1 / 10 then
    (mset4 s.A ig jg jg ig (Nx - ig - 1) (Nx - jg - 1) (Nx - jg - 1) (Nx - ig - 1) 1,
     mset4 s.F ig jg jg ig (Nx - ig - 1) (Nx - jg - 1) (Nx - jg - 1) (Nx - ig - 1) 0,
     1)
  else if s.A ig jg > 9 / 10 then
    (mset4 s.A ig jg jg ig (Nx - ig - 1) (Nx - jg - 1) (Nx - jg - 1) (Nx - ig - 1) 0,
     mset4 s.F ig jg jg ig (Nx - ig - 1) (Nx - jg - 1) (Nx - jg - 1) (Nx - ig - 1) 0,
     -1)
  else (s.A, s.F, 0)

/-- Instrumentation record: one `SwitchGate` invocation made by
`FlipTestSwitch` at gate group `(ig, jg)`; `Fval` is the value of
`self.F[ig, jg]` at the moment of the invocation. -/
structure FlipEv where
  ig : ℕ
  jg : ℕ
  Fval : ℚ
  deriving DecidableEq

/-- Loop state of `FlipTestSwitch`: the session matrices, the best cycle
length `Ncx`, the random-stream cursor and the ghost toggle log. -/
structure FlipSt where
  A : Mat
  F : Mat
  Ncx : ℕ
  k : ℕ
  evs : List FlipEv

/-- Inner column loop of `FlipTestSwitch` for row `ig` over the remaining
column indices.  An early `some` return models the `break` once
`Ncx >= Ns - 5` (which exits the inner loop only); `none` propagates the
`IndexError` of a failed `PathCount`. -/
def flipInner (s : KolamDraw) (ksh : ℚ) (r : ℕ → ℕ) (ig : ℕ) :
    FlipSt → List ℕ → Option FlipSt
  | st, [] => some st
  | st, jg :: rest =>
    -- Ax, Fx = self.A * 1, self.F * 1
    let Ax := st.A
    let Fx := st.F
    -- if self.F[ig, jg] == 0 and self.toss(ksh) == 1:  (short-circuit)
    let next : Option FlipSt :=
      if st.F ig jg = 0 then
        if toss ksh (r st.k) = 1 then
          let cur := { s with A := st.A, F := st.F }
          let AFg := SwitchGate cur ig jg
          let st : FlipSt := { st with
            A := AFg.1
            F := AFg.2.1
            k := st.k + 1
            evs := st.evs ++ [⟨ig, jg, Fx ig jg⟩] }
          match PathCount { s with A := st.A, F := st.F } r st.k with
          | none => none
          | some Nc =>
            let st : FlipSt := { st with k := st.k + 2 }
            if Nc < st.Ncx then some { st with A := Ax, F := Fx }
            else some { st with Ncx := Nc }
        else some { st with k := st.k + 1 }
      else some st
    match next with
    | none => none
    | some st =>
      if st.Ncx ≥ s.Ns - 5 then some st
      else flipInner s ksh r ig st rest

/-- Outer row loop of `FlipTestSwitch` (the inner `break` does not exit
this loop). -/
def flipOuter (s : KolamDraw) (ksh : ℚ) (r : ℕ → ℕ) :
    FlipSt → List ℕ → Option FlipSt
  | st, [] => some st
  | st, ig :: rest =>
    match flipInner s ksh r ig st (List.range' ig (s.Nx - 1 - 2 * ig)) with
    | none => none
    | some st => flipOuter s ksh r st rest

/-- `FlipTestSwitch(ksh, iL, iH)`: measure the entry cycle length, then
sweep the clamped row range, tentatively toggling gate groups and keeping a
toggle exactly when the re-measured cycle length is not smaller than the
best length seen.  Returns the final session matrices, the best cycle
length, and the ghost toggle log. -/
def FlipTestSwitch (s : KolamDraw) (ksh : ℚ) (iL iH : ℕ) (r : ℕ → ℕ) (k : ℕ) :
    Option FlipSt :=
  match PathCount s r k with
  | none => none
  | some Ncx =>
    let Nx2 := s.Nx / 2
    let iLx := max (min iL Nx2) 1
    let iHx := max (min iH Nx2) (max (min iL Nx2) 1)
    flipOuter s ksh r { A := s.A, F := s.F, Ncx := Ncx, k := k + 2, evs := [] }
      (List.range' iLx (iHx - iLx))

/-- Result record of `Dice` (the tuple it returns, plus the final stream
cursor `k` and the ghost trial log `recs` of `(gate matrix snapshot,
cycle length)` pairs for the trials that closed a cycle). -/
structure DiceOut where
  A : Mat
  F : Mat
  Amax : Mat
  isx : ℕ
  ithx : ℕ
  ismax : ℕ
  Flag1 : ℤ
  Flag2 : ℤ
  krx : List ℚ
  k : ℕ
  recs : List (Mat × ℕ)

/-- Mutable state threaded through the `Dice` trial loop. -/
structure DiceSt where
  A : Mat
  F : Mat
  Amax : Mat
  isx : ℕ
  ithx : ℕ
  ismax : ℕ
  Flag1 : ℤ
  Flag2 : ℤ
  krx : List ℚ
  k : ℕ
  recs : List (Mat × ℕ)

/-- Package the final `Dice` loop state. -/
def DiceSt.out (st : DiceSt) : DiceOut :=
  { A := st.A, F := st.F, Amax := st.Amax, isx := st.isx, ithx := st.ithx,
    ismax := st.ismax, Flag1 := st.Flag1, Flag2 := st.Flag2, krx := st.krx,
    k := st.k, recs := st.recs }

/-- Trial loop of `Dice`: `fuel = Nthr - ith` many trials remain.  Each
trial runs `AssignGates`, traces the cycle from the fixed start `(1, 1)`
with code `0`, and updates the best-seen snapshot; a trial whose cycle
length exceeds `Ns/2 - 2` ends the loop early (the `ith = Nthr + 1`
assignment in the source). -/
def diceLoop (s : KolamDraw) (krRef Kp Ki : ℚ) (r : ℕ → ℕ) :
    ℕ → ℕ → DiceSt → Option DiceOut
  | _, 0, st => some st.out
  | ith, fuel + 1, st =>
    let asg := AssignGates s krRef Kp Ki r st.k
    let st : DiceSt := { st with A := asg.A, F := asg.F, krx := st.krx ++ [asg.kr], k := asg.k }
    match traceCycle { s with A := st.A, F := st.F } 1 1 with
    | none => none
    | some isx =>
      let Flag1 : ℤ := if isx = 0 then 0 else 1
      let st : DiceSt := { st with isx := isx, Flag1 := Flag1, Flag2 := 0 }
      if Flag1 = 1 then
        -- if isx < Ns + 2:
        let st : DiceSt :=
          if (isx : ℤ) < (s.Ns : ℤ) + 2 then
            let st : DiceSt := { st with Flag2 := 1, recs := st.recs ++ [(st.A, isx)] }
            if isx > st.ismax then { st with ismax := isx, Amax := st.A } else st
          else st
        -- if isx > Ns / 2 - 2:  (early exit: Flag2, ithx, ith = 2, ith, Nthr + 1)
        if (isx : ℚ) > (s.Ns : ℚ) / 2 - 2 then
          some { st with Flag2 := 2, ithx := ith }.out
        else diceLoop s krRef Kp Ki r (ith + 1) fuel st
      else diceLoop s krRef Kp Ki r (ith + 1) fuel st

/-- `Dice(krRef, Kp, Ki, Nthr)`: run up to `Nthr` assignment trials and
keep the snapshot `Amax` of the largest cycle length seen (`self.A`/`self.F`
are left holding the last trial). -/
def Dice (s : KolamDraw) (krRef Kp Ki : ℚ) (Nthr : ℕ) (r : ℕ → ℕ) (k : ℕ) :
    Option DiceOut :=
  diceLoop s krRef Kp Ki r 0 Nthr
    { A := s.A, F := s.F, Amax := fun _ _ => 99, isx := 0, ithx := 0,
      ismax := 0, Flag1 := 0, Flag2 := 0, krx := [], k := k, recs := [] }

/-- `IterFlipTestSwitch(ksh, Niter, iL, iH)`: repeat `FlipTestSwitch`
sweeps until the cycle length reaches `Ns - 5` or the iteration budget is
exhausted; returns `(Ncx, A, F)` (as a `FlipSt`, dropping its ghost log). -/
def iterLoop (s : KolamDraw) (ksh : ℚ) (iL iH : ℕ) (r : ℕ → ℕ) :
    ℕ → FlipSt → Option FlipSt
  | 0, st => some st
  | n + 1, st =>
    match FlipTestSwitch { s with A := st.A, F := st.F } ksh iL iH r st.k with
    | none => none
    | some st2 =>
      let st : FlipSt := { st2 with evs := st.evs ++ st2.evs }
      if st.Ncx ≥ s.Ns - 5 then some st
      else iterLoop s ksh iL iH r n st

/-- `IterFlipTestSwitch` entry point. -/
def IterFlipTestSwitch (s : KolamDraw) (ksh : ℚ) (Niter iL iH : ℕ)
    (r : ℕ → ℕ) (k : ℕ) : Option FlipSt :=
  match PathCount s r k with
  | none => none
  | some Ncx =>
    let st : FlipSt := { A := s.A, F := s.F, Ncx := Ncx, k := k + 2, evs := [] }
    if Ncx < s.Ns then iterLoop s ksh iL iH r Niter st
    else some st

/-- The `is_one_stroke` field of the JSON response assembled by
`generate_kolam_base64` in `api/generate.py`: `Ncx == 1` where `Ncx` is the
cycle length produced by the pipeline. -/
def is_one_stroke (Ncx : ℕ) : Bool := Ncx == 1

/-- The `(path_count, is_one_stroke)` pair of the response dictionary
returned by `generate_kolam_base64`. -/
def responseFields (Ncx : ℕ) : ℕ × Bool := (Ncx, is_one_stroke Ncx)

/-! ### Pointwise lemmas about matrix stores -/

theorem mset_ne {M : Mat} {i j p q : ℕ} {v : ℚ} (h : ¬(p = i ∧ q = j)) :
    mset M i j v p q = M p q := if_neg h

theorem mset_eq {M : Mat} {i j p q : ℕ} {v : ℚ} (h : p = i ∧ q = j) :
    mset M i j v p q = v := if_pos h

theorem mset4_hit {M : Mat} {a1 b1 a2 b2 a3 b3 a4 b4 p q : ℕ} {v : ℚ}
    (h : (p = a1 ∧ q = b1) ∨ (p = a2 ∧ q = b2) ∨ (p = a3 ∧ q = b3) ∨ (p = a4 ∧ q = b4)) :
    mset4 M a1 b1 a2 b2 a3 b3 a4 b4 v p q = v := by
  by_cases h4 : p = a4 ∧ q = b4
  · exact mset_eq h4
  simp only [mset4]
  rw [mset_ne h4]
  by_cases h3 : p = a3 ∧ q = b3
  · exact mset_eq h3
  rw [mset_ne h3]
  by_cases h2 : p = a2 ∧ q = b2
  · exact mset_eq h2
  rw [mset_ne h2]
  exact mset_eq (by tauto)

theorem mset4_miss {M : Mat} {a1 b1 a2 b2 a3 b3 a4 b4 p q : ℕ} {v : ℚ}
    (h : ¬((p = a1 ∧ q = b1) ∨ (p = a2 ∧ q = b2) ∨ (p = a3 ∧ q = b3) ∨ (p = a4 ∧ q = b4))) :
    mset4 M a1 b1 a2 b2 a3 b3 a4 b4 v p q = M p q := by
  simp only [mset4]
  rw [mset_ne (by tauto), mset_ne (by tauto), mset_ne (by tauto), mset_ne (by tauto)]

theorem mset4_cases (M : Mat) (a1 b1 a2 b2 a3 b3 a4 b4 p q : ℕ) (v : ℚ) :
    mset4 M a1 b1 a2 b2 a3 b3 a4 b4 v p q = v ∨
    mset4 M a1 b1 a2 b2 a3 b3 a4 b4 v p q = M p q := by
  by_cases h : (p = a1 ∧ q = b1) ∨ (p = a2 ∧ q = b2) ∨ (p = a3 ∧ q = b3) ∨ (p = a4 ∧ q = b4)
  · exact Or.inl (mset4_hit h)
  · exact Or.inr (mset4_miss h)

theorem mset_cases (M : Mat) (i j p q : ℕ) (v : ℚ) :
    mset M i j v p q = v ∨ mset M i j v p q = M p q := by
  by_cases h : p = i ∧ q = j
  · exact Or.inl (mset_eq h)
  · exact Or.inr (mset_ne h)

/-! ### Characterization of `ResetGateMatrix` -/

theorem borderStep_stable (Nx : ℕ) (AF : Mat × Mat) (i p q : ℕ)
    (hA : AF.1 p q = 0) (hF : AF.2 p q = 0) :
    (borderStep Nx AF i).1 p q = 0 ∧ (borderStep Nx AF i).2 p q = 0 := by
  constructor
  · rcases mset4_cases AF.1 0 i i 0 (Nx - 1) i i (Nx - 1) p q 0 with h | h <;>
      simp [borderStep, h, hA]
  · rcases mset4_cases AF.2 0 i i 0 (Nx - 1) i i (Nx - 1) p q 0 with h | h <;>
      simp [borderStep, h, hF]

theorem borderFold_stable (Nx : ℕ) (l : List ℕ) (AF : Mat × Mat) (p q : ℕ)
    (hA : AF.1 p q = 0) (hF : AF.2 p q = 0) :
    (l.foldl (borderStep Nx) AF).1 p q = 0 ∧ (l.foldl (borderStep Nx) AF).2 p q = 0 := by
  induction l generalizing AF with
  | nil => exact ⟨hA, hF⟩
  | cons a t ih =>
    have h := borderStep_stable Nx AF a p q hA hF
    exact ih _ h.1 h.2

theorem borderFold_mem (Nx : ℕ) (l : List ℕ) (AF : Mat × Mat) (q : ℕ) (hq : q ∈ l) :
    ((l.foldl (borderStep Nx) AF).1 0 q = 0 ∧ (l.foldl (borderStep Nx) AF).1 q 0 = 0 ∧
     (l.foldl (borderStep Nx) AF).1 (Nx - 1) q = 0 ∧ (l.foldl (borderStep Nx) AF).1 q (Nx - 1) = 0) ∧
    ((l.foldl (borderStep Nx) AF).2 0 q = 0 ∧ (l.foldl (borderStep Nx) AF).2 q 0 = 0 ∧
     (l.foldl (borderStep Nx) AF).2 (Nx - 1) q = 0 ∧ (l.foldl (borderStep Nx) AF).2 q (Nx - 1) = 0) := by
  induction l generalizing AF with
  | nil => cases hq
  | cons a t ih =>
    rcases List.mem_cons.1 hq with rfl | hmem
    · -- the head step writes all four cells to 0; the tail preserves 0
      have h1 : (borderStep Nx AF q).1 0 q = 0 ∧ (borderStep Nx AF q).2 0 q = 0 := by
        constructor <;> exact mset4_hit (by tauto)
      have h2 : (borderStep Nx AF q).1 q 0 = 0 ∧ (borderStep Nx AF q).2 q 0 = 0 := by
        constructor <;> exact mset4_hit (by tauto)
      have h3 : (borderStep Nx AF q).1 (Nx - 1) q = 0 ∧ (borderStep Nx AF q).2 (Nx - 1) q = 0 := by
        constructor <;> exact mset4_hit (by tauto)
      have h4 : (borderStep Nx AF q).1 q (Nx - 1) = 0 ∧ (borderStep Nx AF q).2 q (Nx - 1) = 0 := by
        constructor <;> exact mset4_hit (by tauto)
      refine ⟨⟨?_, ?_, ?_, ?_⟩, ?_, ?_, ?_, ?_⟩ <;>
        first
          | exact (borderFold_stable Nx t _ _ _ h1.1 h1.2).1
          | exact (borderFold_stable Nx t _ _ _ h2.1 h2.2).1
          | exact (borderFold_stable Nx t _ _ _ h3.1 h3.2).1
          | exact (borderFold_stable Nx t _ _ _ h4.1 h4.2).1
          | exact (borderFold_stable Nx t _ _ _ h1.1 h1.2).2
          | exact (borderFold_stable Nx t _ _ _ h2.1 h2.2).2
          | exact (borderFold_stable Nx t _ _ _ h3.1 h3.2).2
          | exact (borderFold_stable Nx t _ _ _ h4.1 h4.2).2
    · exact ih _ hmem

theorem borderFold_ne (Nx : ℕ) (l : List ℕ) (AF : Mat × Mat) (p q : ℕ)
    (hp : p ≠ 0 ∧ p ≠ Nx - 1) (hq : q ≠ 0 ∧ q ≠ Nx - 1) :
    (l.foldl (borderStep Nx) AF).1 p q = AF.1 p q ∧
    (l.foldl (borderStep Nx) AF).2 p q = AF.2 p q := by
  induction l generalizing AF with
  | nil => exact ⟨rfl, rfl⟩
  | cons a t ih =>
    have h1 : (borderStep Nx AF a).1 p q = AF.1 p q := mset4_miss (by tauto)
    have h2 : (borderStep Nx AF a).2 p q = AF.2 p q := mset4_miss (by tauto)
    have h := ih (borderStep Nx AF a)
    exact ⟨by rw [List.foldl_cons, h.1, h1], by rw [List.foldl_cons, h.2, h2]⟩

theorem diagStep_stable (Nx : ℕ) (AF : Mat × Mat) (i p q : ℕ)
    (hA : AF.1 p q = 1) (hF : AF.2 p q = 0) :
    (diagStep Nx AF i).1 p q = 1 ∧ (diagStep Nx AF i).2 p q = 0 := by
  constructor
  · rcases mset_cases (mset AF.1 i i 1) i (Nx - 1 - i) p q 1 with h | h
    · simp [diagStep, h]
    · rcases mset_cases AF.1 i i p q 1 with h2 | h2 <;> simp [diagStep, h, h2, hA]
  · rcases mset_cases (mset AF.2 i i 0) i (Nx - 1 - i) p q 0 with h | h
    · simp [diagStep, h]
    · rcases mset_cases AF.2 i i p q 0 with h2 | h2 <;> simp [diagStep, h, h2, hF]

theorem diagFold_stable (Nx : ℕ) (l : List ℕ) (AF : Mat × Mat) (p q : ℕ)
    (hA : AF.1 p q = 1) (hF : AF.2 p q = 0) :
    (l.foldl (diagStep Nx) AF).1 p q = 1 ∧ (l.foldl (diagStep Nx) AF).2 p q = 0 := by
  induction l generalizing AF with
  | nil => exact ⟨hA, hF⟩
  | cons a t ih =>
    have h := diagStep_stable Nx AF a p q hA hF
    exact ih _ h.1 h.2

theorem diagFold_mem (Nx : ℕ) (l : List ℕ) (AF : Mat × Mat) (i : ℕ) (hi : i ∈ l) :
    ((l.foldl (diagStep Nx) AF).1 i i = 1 ∧ (l.foldl (diagStep Nx) AF).1 i (Nx - 1 - i) = 1) ∧
    ((l.foldl (diagStep Nx) AF).2 i i = 0 ∧ (l.foldl (diagStep Nx) AF).2 i (Nx - 1 - i) = 0) := by
  induction l generalizing AF with
  | nil => cases hi
  | cons a t ih =>
    rcases List.mem_cons.1 hi with rfl | hmem
    · have hA1 : (diagStep Nx AF i).1 i i = 1 := by
        rcases mset_cases (mset AF.1 i i 1) i (Nx - 1 - i) i i 1 with h | h
        · simp [diagStep, h]
        · simp [diagStep, h, mset_eq ⟨rfl, rfl⟩]
      have hA2 : (diagStep Nx AF i).1 i (Nx - 1 - i) = 1 := by
        simp [diagStep, mset_eq ⟨rfl, rfl⟩]
      have hF1 : (diagStep Nx AF i).2 i i = 0 := by
        rcases mset_cases (mset AF.2 i i 0) i (Nx - 1 - i) i i 0 with h | h
        · simp [diagStep, h]
        · simp [diagStep, h, mset_eq ⟨rfl, rfl⟩]
      have hF2 : (diagStep Nx AF i).2 i (Nx - 1 - i) = 0 := by
        simp [diagStep, mset_eq ⟨rfl, rfl⟩]
      exact ⟨⟨(diagFold_stable Nx t _ _ _ hA1 hF1).1, (diagFold_stable Nx t _ _ _ hA2 hF2).1⟩,
             (diagFold_stable Nx t _ _ _ hA1 hF1).2, (diagFold_stable Nx t _ _ _ hA2 hF2).2⟩
    · exact ih _ hmem

theorem diagFold_ne (Nx : ℕ) (l : List ℕ) (AF : Mat × Mat) (p q : ℕ)
    (h : p ∉ l ∨ (p ≠ q ∧ q ≠ Nx - 1 - p)) :
    (l.foldl (diagStep Nx) AF).1 p q = AF.1 p q ∧
    (l.foldl (diagStep Nx) AF).2 p q = AF.2 p q := by
  induction l generalizing AF with
  | nil => exact ⟨rfl, rfl⟩
  | cons a t ih =>
    have hmiss : ¬(p = a ∧ q = a) ∧ ¬(p = a ∧ q = Nx - 1 - a) := by
      rcases h with h | h
      · constructor <;> rintro ⟨rfl, _⟩ <;> exact h (List.mem_cons_self _ _)
      · constructor <;> rintro ⟨rfl, rfl⟩
        · exact h.1 rfl
        · exact h.2 rfl
    have h1 : (diagStep Nx AF a).1 p q = AF.1 p q := by
      simp only [diagStep]
      rw [mset_ne hmiss.2, mset_ne hmiss.1]
    have h2 : (diagStep Nx AF a).2 p q = AF.2 p q := by
      simp only [diagStep]
      rw [mset_ne hmiss.2, mset_ne hmiss.1]
    have ht : p ∉ t ∨ (p ≠ q ∧ q ≠ Nx - 1 - p) := by
      rcases h with h | h
      · exact Or.inl fun hm => h (List.mem_cons_of_mem _ hm)
      · exact Or.inr h
    have hr := ih (diagStep Nx AF a) ht
    exact ⟨by rw [List.foldl_cons, hr.1, h1], by rw [List.foldl_cons, hr.2, h2]⟩

theorem maskStep_stable (s : KolamDraw) (AF : Mat × Mat) (ij : ℕ × ℕ) (p q : ℕ)
    (hA : AF.1 p q = 0) (hF : AF.2 p q = 0) :
    (maskStep s AF ij).1 p q = 0 ∧ (maskStep s AF ij).2 p q = 0 := by
  unfold maskStep
  split
  · exact ⟨hA, hF⟩
  · constructor
    · rcases mset_cases AF.1 ij.1 ij.2 p q 0 with h | h <;> simp [h, hA]
    · rcases mset_cases AF.2 ij.1 ij.2 p q 0 with h | h <;> simp [h, hF]

theorem maskFold_stable (s : KolamDraw) (l : List (ℕ × ℕ)) (AF : Mat × Mat) (p q : ℕ)
    (hA : AF.1 p q = 0) (hF : AF.2 p q = 0) :
    (l.foldl (maskStep s) AF).1 p q = 0 ∧ (l.foldl (maskStep s) AF).2 p q = 0 := by
  induction l generalizing AF with
  | nil => exact ⟨hA, hF⟩
  | cons a t ih =>
    have h := maskStep_stable s AF a p q hA hF
    exact ih _ h.1 h.2

theorem maskFold_inside (s : KolamDraw) (l : List (ℕ × ℕ)) (AF : Mat × Mat) (p q : ℕ)
    (h : is_inside_boundary s p q = true) :
    (l.foldl (maskStep s) AF).1 p q = AF.1 p q ∧
    (l.foldl (maskStep s) AF).2 p q = AF.2 p q := by
  induction l generalizing AF with
  | nil => exact ⟨rfl, rfl⟩
  | cons a t ih =>
    have hstep : (maskStep s AF a).1 p q = AF.1 p q ∧ (maskStep s AF a).2 p q = AF.2 p q := by
      unfold maskStep
      split
      · exact ⟨rfl, rfl⟩
      · rename_i hins
        have hne : ¬(p = a.1 ∧ q = a.2) := by
          rintro ⟨rfl, rfl⟩
          exact hins h
        exact ⟨mset_ne hne, mset_ne hne⟩
    have hr := ih (maskStep s AF a)
    exact ⟨by rw [List.foldl_cons, hr.1, hstep.1], by rw [List.foldl_cons, hr.2, hstep.2]⟩

theorem maskFold_mem (s : KolamDraw) (l : List (ℕ × ℕ)) (AF : Mat × Mat) (p q : ℕ)
    (hm : (p, q) ∈ l) (h : ¬is_inside_boundary s p q = true) :
    (l.foldl (maskStep s) AF).1 p q = 0 ∧ (l.foldl (maskStep s) AF).2 p q = 0 := by
  induction l generalizing AF with
  | nil => cases hm
  | cons a t ih =>
    rcases List.mem_cons.1 hm with rfl | hmem
    · have hstep : (maskStep s AF (p, q)).1 p q = 0 ∧ (maskStep s AF (p, q)).2 p q = 0 := by
        unfold maskStep
        split
        · rename_i hins
          exact absurd hins h
        · exact ⟨mset_eq ⟨rfl, rfl⟩, mset_eq ⟨rfl, rfl⟩⟩
      exact maskFold_stable s t _ p q hstep.1 hstep.2
    · exact ih _ hmem

theorem mem_allPairs {Nx p q : ℕ} (hp : p < Nx) (hq : q < Nx) : (p, q) ∈ allPairs Nx := by
  simp only [allPairs, List.mem_flatMap, List.mem_map, List.mem_range]
  exact ⟨p, hp, q, hq, rfl⟩

theorem maskFold_stableF (s : KolamDraw) (l : List (ℕ × ℕ)) (AF : Mat × Mat) (p q : ℕ)
    (hF : AF.2 p q = 0) : (l.foldl (maskStep s) AF).2 p q = 0 := by
  induction l generalizing AF with
  | nil => exact hF
  | cons a t ih =>
    have h : (maskStep s AF a).2 p q = 0 := by
      unfold maskStep
      split
      · exact hF
      · rcases mset_cases AF.2 a.1 a.2 p q 0 with h | h <;> simp [h, hF]
    exact ih _ h

/-- Membership in the two border rows / columns of the `Nx × Nx` block. -/
def borderCell (Nx p q : ℕ) : Prop := p = 0 ∨ p = Nx - 1 ∨ q = 0 ∨ q = Nx - 1

instance (Nx p q : ℕ) : Decidable (borderCell Nx p q) := by
  unfold borderCell
  infer_instance

theorem reset_border (s : KolamDraw) {p q : ℕ} (hp : p < s.Nx) (hq : q < s.Nx)
    (hb : borderCell s.Nx p q) :
    (ResetGateMatrix s).1 p q = 0 ∧ (ResetGateMatrix s).2 p q = 0 := by
  -- value after the border fold is 0 at any border cell
  have hbase : ∀ AF0 : Mat × Mat,
      ((List.range s.Nx).foldl (borderStep s.Nx) AF0).1 p q = 0 ∧
      ((List.range s.Nx).foldl (borderStep s.Nx) AF0).2 p q = 0 := by
    intro AF0
    rcases hb with rfl | rfl | rfl | rfl
    · exact ⟨(borderFold_mem s.Nx _ AF0 q (List.mem_range.2 hq)).1.1,
             (borderFold_mem s.Nx _ AF0 q (List.mem_range.2 hq)).2.1⟩
    · exact ⟨(borderFold_mem s.Nx _ AF0 q (List.mem_range.2 hq)).1.2.2.1,
             (borderFold_mem s.Nx _ AF0 q (List.mem_range.2 hq)).2.2.2.1⟩
    · exact ⟨(borderFold_mem s.Nx _ AF0 p (List.mem_range.2 hp)).1.2.1,
             (borderFold_mem s.Nx _ AF0 p (List.mem_range.2 hp)).2.2.1⟩
    · exact ⟨(borderFold_mem s.Nx _ AF0 p (List.mem_range.2 hp)).1.2.2.2,
             (borderFold_mem s.Nx _ AF0 p (List.mem_range.2 hp)).2.2.2.2⟩
  -- the diagonal fold leaves border cells untouched
  have hdiag : ∀ AF1 : Mat × Mat,
      ((List.range' 1 (s.Nx - 2)).foldl (diagStep s.Nx) AF1).1 p q = AF1.1 p q ∧
      ((List.range' 1 (s.Nx - 2)).foldl (diagStep s.Nx) AF1).2 p q = AF1.2 p q := by
    intro AF1
    refine diagFold_ne s.Nx _ AF1 p q ?_
    by_cases hmem : p ∈ List.range' 1 (s.Nx - 2)
    · have hpb := List.mem_range'_1.1 hmem
      right
      constructor <;> rcases hb with h | h | h | h <;> omega
    · exact Or.inl hmem
  simp only [ResetGateMatrix]
  split
  · exact ⟨by rw [(hdiag _).1, (hbase _).1], by rw [(hdiag _).2, (hbase _).2]⟩
  · refine maskFold_stable s _ _ p q ?_ ?_
    · rw [(hdiag _).1, (hbase _).1]
    · rw [(hdiag _).2, (hbase _).2]

theorem reset_diag_anti (s : KolamDraw) {i : ℕ} (h1 : 1 ≤ i) (h2 : i ≤ s.Nx - 2)
    (hb : s.boundary.isDiamond = true) :
    (ResetGateMatrix s).1 i i = 1 ∧ (ResetGateMatrix s).1 i (s.Nx - 1 - i) = 1 ∧
    (ResetGateMatrix s).2 i i = 0 ∧ (ResetGateMatrix s).2 i (s.Nx - 1 - i) = 0 := by
  have hmem : i ∈ List.range' 1 (s.Nx - 2) := List.mem_range'_1.2 ⟨h1, by omega⟩
  simp only [ResetGateMatrix]
  rw [if_pos hb]
  exact ⟨(diagFold_mem _ _ _ i hmem).1.1, (diagFold_mem _ _ _ i hmem).1.2,
         (diagFold_mem _ _ _ i hmem).2.1, (diagFold_mem _ _ _ i hmem).2.2⟩

theorem reset_F_diag (s : KolamDraw) {i : ℕ} (h1 : 1 ≤ i) (h2 : i ≤ s.Nx - 2) :
    (ResetGateMatrix s).2 i i = 0 ∧ (ResetGateMatrix s).2 i (s.Nx - 1 - i) = 0 := by
  have hmem : i ∈ List.range' 1 (s.Nx - 2) := List.mem_range'_1.2 ⟨h1, by omega⟩
  simp only [ResetGateMatrix]
  split
  · exact ⟨(diagFold_mem _ _ _ i hmem).2.1, (diagFold_mem _ _ _ i hmem).2.2⟩
  · exact ⟨maskFold_stableF s _ _ _ _ (diagFold_mem _ _ _ i hmem).2.1,
           maskFold_stableF s _ _ _ _ (diagFold_mem _ _ _ i hmem).2.2⟩

theorem reset_A_free (s : KolamDraw) {p q : ℕ}
    (hp : p ≠ 0 ∧ p ≠ s.Nx - 1) (hq : q ≠ 0 ∧ q ≠ s.Nx - 1)
    (hd : p ≠ q) (ha : q ≠ s.Nx - 1 - p) (hb : s.boundary.isDiamond = true) :
    (ResetGateMatrix s).1 p q = 99 ∧ (ResetGateMatrix s).2 p q = 1 := by
  simp only [ResetGateMatrix]
  rw [if_pos hb]
  have hb2 := borderFold_ne s.Nx (List.range s.Nx)
    (fun _ _ => (99 : ℚ), fun _ _ => (1 : ℚ)) p q hp hq
  constructor
  · rw [(diagFold_ne s.Nx _ _ p q (Or.inr ⟨hd, ha⟩)).1, hb2.1]
  · rw [(diagFold_ne s.Nx _ _ p q (Or.inr ⟨hd, ha⟩)).2, hb2.2]

/-- All flag values produced by `ResetGateMatrix` are `0` or `1`. -/
theorem reset_F_bool (s : KolamDraw) (p q : ℕ) :
    (ResetGateMatrix s).2 p q = 0 ∨ (ResetGateMatrix s).2 p q = 1 := by
  have hborder : ∀ (l : List ℕ) (AF : Mat × Mat),
      (AF.2 p q = 0 ∨ AF.2 p q = 1) →
      ((l.foldl (borderStep s.Nx) AF).2 p q = 0 ∨ (l.foldl (borderStep s.Nx) AF).2 p q = 1) := by
    intro l
    induction l with
    | nil => exact fun AF h => h
    | cons a t ih =>
      intro AF h
      refine ih _ ?_
      rcases mset4_cases AF.2 0 a a 0 (s.Nx - 1) a a (s.Nx - 1) p q 0 with h2 | h2
      · exact Or.inl h2
      · simpa [borderStep, h2] using h
  have hdiagf : ∀ (l : List ℕ) (AF : Mat × Mat),
      (AF.2 p q = 0 ∨ AF.2 p q = 1) →
      ((l.foldl (diagStep s.Nx) AF).2 p q = 0 ∨ (l.foldl (diagStep s.Nx) AF).2 p q = 1) := by
    intro l
    induction l with
    | nil => exact fun AF h => h
    | cons a t ih =>
      intro AF h
      refine ih _ ?_
      rcases mset_cases (mset AF.2 a a 0) a (s.Nx - 1 - a) p q 0 with h2 | h2
      · exact Or.inl (by simpa [diagStep] using h2)
      · rcases mset_cases AF.2 a a p q 0 with h3 | h3
        · exact Or.inl (by simp [diagStep, h2, h3])
        · simpa [diagStep, h2, h3] using h
  have hmaskf : ∀ (l : List (ℕ × ℕ)) (AF : Mat × Mat),
      (AF.2 p q = 0 ∨ AF.2 p q = 1) →
      ((l.foldl (maskStep s) AF).2 p q = 0 ∨ (l.foldl (maskStep s) AF).2 p q = 1) := by
    intro l
    induction l with
    | nil => exact fun AF h => h
    | cons a t ih =>
      intro AF h
      refine ih _ ?_
      unfold maskStep
      split
      · exact h
      · rcases mset_cases AF.2 a.1 a.2 p q 0 with h2 | h2
        · exact Or.inl h2
        · simpa [h2] using h
  simp only [ResetGateMatrix]
  split
  · exact hdiagf _ _ (hborder _ _ (Or.inr rfl))
  · exact hmaskf _ _ (hdiagf _ _ (hborder _ _ (Or.inr rfl)))

/-! ### Four-fold symmetry -/

/-- Four-fold symmetry of an `Nx × Nx` gate matrix: each cell agrees with
its transpose and its two 180-degree images, as the specification states. -/
def FourSym (Nx : ℕ) (M : Mat) : Prop :=
  ∀ p q, p < Nx → q < Nx →
    M p q = M q p ∧ M p q = M (Nx - 1 - p) (Nx - 1 - q) ∧
    M p q = M (Nx - 1 - q) (Nx - 1 - p)

/-- Membership of `(p, q)` in the symmetry orbit of `(i, j)` with
`n = Nx - 1`. -/
def orbMem (n i j p q : ℕ) : Prop :=
  (p = i ∧ q = j) ∨ (p = j ∧ q = i) ∨ (p = n - i ∧ q = n - j) ∨ (p = n - j ∧ q = n - i)

theorem orbMem_swap {n i j p q : ℕ} (hi : i ≤ n) (hj : j ≤ n) (hp : p ≤ n) (hq : q ≤ n) :
    orbMem n i j p q ↔ orbMem n i j q p := by
  unfold orbMem
  omega

theorem orbMem_rot {n i j p q : ℕ} (hi : i ≤ n) (hj : j ≤ n) (hp : p ≤ n) (hq : q ≤ n) :
    orbMem n i j p q ↔ orbMem n i j (n - p) (n - q) := by
  unfold orbMem
  omega

instance (n i j p q : ℕ) : Decidable (orbMem n i j p q) := by
  unfold orbMem
  infer_instance

/-- Value of the symmetric 4-cell chained store used throughout the engine. -/
theorem mset4_orb (M : Mat) (n i j p q : ℕ) (v : ℚ) :
    mset4 M i j j i (n - i) (n - j) (n - j) (n - i) v p q =
      if orbMem n i j p q then v else M p q := by
  by_cases h : orbMem n i j p q
  · rw [if_pos h]
    exact mset4_hit (by tauto)
  · rw [if_neg h]
    exact mset4_miss (by tauto)

/-- Storing one value over a whole symmetry orbit preserves four-fold
symmetry. -/
theorem fourSym_mset4 {Nx : ℕ} {M : Mat} (hM : FourSym Nx M) {i j : ℕ}
    (hi : i ≤ Nx - 1) (hj : j ≤ Nx - 1) (v : ℚ) :
    FourSym Nx (mset4 M i j j i (Nx - 1 - i) (Nx - 1 - j) (Nx - 1 - j) (Nx - 1 - i) v) := by
  intro p q hp hq
  have hp1 : p ≤ Nx - 1 := by omega
  have hq1 : q ≤ Nx - 1 := by omega
  have hp2 : Nx - 1 - p < Nx := by omega
  have hq2 : Nx - 1 - q < Nx := by omega
  rw [mset4_orb, mset4_orb, mset4_orb, mset4_orb]
  by_cases h : orbMem (Nx - 1) i j p q
  · rw [if_pos h, if_pos ((orbMem_swap hi hj hp1 hq1).1 h),
        if_pos ((orbMem_rot hi hj hp1 hq1).1 h),
        if_pos ((orbMem_swap hi hj (by omega) (by omega)).1 ((orbMem_rot hi hj hp1 hq1).1 h))]
    exact ⟨rfl, rfl, rfl⟩
  · rw [if_neg h, if_neg (fun hc => h ((orbMem_swap hi hj hp1 hq1).2 hc)),
        if_neg (fun hc => h ((orbMem_rot hi hj hp1 hq1).2 hc))]
    rw [if_neg (fun hc => h ((orbMem_rot hi hj hp1 hq1).2
          ((orbMem_swap hi hj (by omega) (by omega)).2 hc)))]
    exact hM p q hp hq

/-- `ResetGateMatrix` under the `diamond` profile, cell by cell. -/
theorem reset_diamond_char (s : KolamDraw) (hb : s.boundary.isDiamond = true)
    {p q : ℕ} (hp : p < s.Nx) (hq : q < s.Nx) :
    (ResetGateMatrix s).1 p q =
      if borderCell s.Nx p q then 0
      else if p = q ∨ q = s.Nx - 1 - p then 1 else 99 := by
  by_cases h1 : borderCell s.Nx p q
  · rw [if_pos h1]
    exact (reset_border s hp hq h1).1
  · rw [if_neg h1]
    unfold borderCell at h1
    push_neg at h1
    by_cases h2 : p = q ∨ q = s.Nx - 1 - p
    · rw [if_pos h2]
      rcases h2 with rfl | rfl
      · exact (reset_diag_anti s (by omega) (by omega) hb).1
      · exact (reset_diag_anti s (by omega) (by omega) hb).2.1
    · rw [if_neg h2]
      push_neg at h2
      exact (reset_A_free s ⟨h1.1, h1.2.1⟩ ⟨h1.2.2.1, h1.2.2.2⟩ h2.1 h2.2 hb).1

/-- The freshly reset gate matrix is four-fold symmetric (diamond profile). -/
theorem reset_diamond_foursym (s : KolamDraw) (hb : s.boundary.isDiamond = true) :
    FourSym s.Nx (ResetGateMatrix s).1 := by
  intro p q hp hq
  have hp2 : s.Nx - 1 - p < s.Nx := by omega
  have hq2 : s.Nx - 1 - q < s.Nx := by omega
  rw [reset_diamond_char s hb hp hq, reset_diamond_char s hb hq hp,
      reset_diamond_char s hb hp2 hq2, reset_diamond_char s hb hq2 hp2]
  unfold borderCell
  refine ⟨?_, ?_, ?_⟩ <;> split_ifs <;> first | rfl | omega

theorem mem_asgPairs {Nx i j : ℕ} (h : (i, j) ∈ asgPairs Nx) :
    1 ≤ i ∧ i < Nx / 2 ∧ i ≤ j ∧ j < Nx - i := by
  simp only [asgPairs, List.mem_flatMap, List.mem_map, List.mem_range'_1] at h
  obtain ⟨a, ⟨ha1, ha2⟩, b, ⟨hb1, hb2⟩, hab⟩ := h
  obtain ⟨rfl, rfl⟩ := Prod.mk.injEq .. ▸ hab
  omega

/-- Variant of `fourSym_mset4` for the coupled-cell store, whose source
expression writes column `Nx - 1 - 1 - j` for the 180-degree image of
column `j + 1`. -/
theorem fourSym_mset4' {Nx : ℕ} {M : Mat} (hM : FourSym Nx M) {i j : ℕ}
    (hi : i ≤ Nx - 1) (hj : j + 1 ≤ Nx - 1) (v : ℚ) :
    FourSym Nx (mset4 M i (j + 1) (j + 1) i (Nx - 1 - i) (Nx - 1 - 1 - j)
      (Nx - 1 - 1 - j) (Nx - 1 - i) v) := by
  have h : Nx - 1 - 1 - j = Nx - 1 - (j + 1) := by omega
  rw [h]
  exact fourSym_mset4 hM hi hj v

theorem storeGroup_A (st : AsgSt) (a1 b1 a2 b2 a3 b3 a4 b4 p0 q0 : ℕ) (nb v : ℚ) :
    (storeGroup st a1 b1 a2 b2 a3 b3 a4 b4 p0 q0 nb v).A =
      mset4 st.A a1 b1 a2 b2 a3 b3 a4 b4 v := by
  unfold storeGroup
  dsimp only
  split <;> rfl

theorem asgSite12_foursym {s : KolamDraw} {kr : ℚ} {r : ℕ → ℕ} {i j : ℕ} {st : AsgSt}
    (hA : FourSym s.Nx st.A) (hi : i ≤ s.Nx - 1) (hj : j + 1 ≤ s.Nx - 1) :
    FourSym s.Nx (asgSite12 s kr r i j st).A := by
  unfold asgSite12
  dsimp only
  rw [storeGroup_A]
  refine fourSym_mset4' ?_ hi hj _
  rw [storeGroup_A]
  exact fourSym_mset4 hA hi (by omega) _

theorem asgSite3_foursym {s : KolamDraw} {kr : ℚ} {r : ℕ → ℕ} {i j : ℕ} {st : AsgSt}
    (hA : FourSym s.Nx st.A) (hi : i ≤ s.Nx - 1) (hj : j ≤ s.Nx - 1) :
    FourSym s.Nx (asgSite3 s kr r i j st).A := by
  unfold asgSite3
  dsimp only
  rw [storeGroup_A]
  exact fourSym_mset4 hA hi hj _

theorem asgSite4_foursym {s : KolamDraw} {kr : ℚ} {r : ℕ → ℕ} {i j : ℕ} {st : AsgSt}
    (hA : FourSym s.Nx st.A) (hi : i ≤ s.Nx - 1) (hj : j + 1 ≤ s.Nx - 1) :
    FourSym s.Nx (asgSite4 s kr r i j st).A := by
  unfold asgSite4
  dsimp only
  rw [storeGroup_A]
  exact fourSym_mset4' hA hi hj _

theorem asgDispatch_foursym (s : KolamDraw) (kr : ℚ) (r : ℕ → ℕ) (i j : ℕ)
    (st : AsgSt) (hi : i ≤ s.Nx - 1) (hj : j ≤ s.Nx - 1) (hj1 : j + 1 ≤ s.Nx - 1)
    (hA : FourSym s.Nx st.A) :
    FourSym s.Nx (asgDispatch s kr r i j st).A := by
  unfold asgDispatch
  dsimp only
  have H2 : FourSym s.Nx (if st.F i (j + 1) = 1 then asgSite12 s kr r i j st else st).A := by
    split_ifs with h
    · exact asgSite12_foursym hA hi hj1
    · exact hA
  set stM : AsgSt := if st.F i (j + 1) = 1 then asgSite12 s kr r i j st else st with hM
  have H3 : FourSym s.Nx (if stM.F i (j + 1) = 0 then asgSite3 s kr r i j stM else stM).A := by
    split_ifs with h
    · exact asgSite3_foursym H2 hi hj
    · exact H2
  set stI : AsgSt := if stM.F i (j + 1) = 0 then asgSite3 s kr r i j stM else stM with hI
  have H1 : FourSym s.Nx (if st.F i j = 1 then stI else st).A := by
    split_ifs with h
    · exact H3
    · exact hA
  set stO : AsgSt := if st.F i j = 1 then stI else st with hO
  split_ifs with h4 h5
  · exact asgSite4_foursym H1 hi hj1
  · exact H1
  · exact H1

theorem asgBody_foursym (s : KolamDraw) (krRef Kp Ki : ℚ) (r : ℕ → ℕ)
    (st : AsgSt) (ij : ℕ × ℕ) (hij : ij ∈ asgPairs s.Nx)
    (hA : FourSym s.Nx st.A) :
    FourSym s.Nx (asgBody s krRef Kp Ki r st ij).A := by
  obtain ⟨i, j⟩ := ij
  have hb := mem_asgPairs hij
  exact asgDispatch_foursym s _ r i j _ (by omega) (by omega) (by omega) hA

theorem asgFold_foursym (s : KolamDraw) (krRef Kp Ki : ℚ) (r : ℕ → ℕ)
    (l : List (ℕ × ℕ)) (hl : ∀ ij ∈ l, ij ∈ asgPairs s.Nx) (st : AsgSt)
    (hA : FourSym s.Nx st.A) :
    FourSym s.Nx (l.foldl (asgBody s krRef Kp Ki r) st).A := by
  induction l generalizing st with
  | nil => exact hA
  | cons a t ih =>
    exact ih (fun ij h => hl ij (List.mem_cons_of_mem _ h)) _
      (asgBody_foursym s krRef Kp Ki r st a (hl a (List.mem_cons_self _ _)) hA)

/-- `AssignGates` output is four-fold symmetric under the diamond profile. -/
theorem assignGates_foursym (s : KolamDraw) (krRef Kp Ki : ℚ) (r : ℕ → ℕ) (k : ℕ)
    (hb : s.boundary.isDiamond = true) :
    FourSym s.Nx (AssignGates s krRef Kp Ki r k).A := by
  unfold AssignGates
  exact asgFold_foursym s krRef Kp Ki r _ (fun _ h => h) _ (reset_diamond_foursym s hb)

/-! ### Preservation through `SwitchGate`, `FlipTestSwitch`, `Dice` -/

theorem switchGate_foursym (s : KolamDraw) (ig jg : ℕ)
    (hig : ig ≤ s.Nx - 1) (hjg : jg ≤ s.Nx - 1) (hA : FourSym s.Nx s.A) :
    FourSym s.Nx (SwitchGate s ig jg).1 := by
  have e1 : s.Nx - ig - 1 = s.Nx - 1 - ig := by omega
  have e2 : s.Nx - jg - 1 = s.Nx - 1 - jg := by omega
  unfold SwitchGate
  dsimp only
  split_ifs
  · rw [e1, e2]
    exact fourSym_mset4 hA hig hjg _
  · rw [e1, e2]
    exact fourSym_mset4 hA hig hjg _
  · exact hA

/-- Generic invariant-propagation through the inner column loop of
`FlipTestSwitch`: any property of the `(A, F)` pair that survives a
symmetric gate toggle at the visited positions survives the whole loop
(reverted toggles restore the saved matrices). -/
theorem flipInner_Q (s : KolamDraw) (ksh : ℚ) (r : ℕ → ℕ) (ig : ℕ)
    (Q : Mat → Mat → Prop) (l : List ℕ)
    (hQ : ∀ (A F : Mat) (jg : ℕ), jg ∈ l → Q A F →
      Q (SwitchGate { s with A := A, F := F } ig jg).1
        (SwitchGate { s with A := A, F := F } ig jg).2.1) :
    ∀ st st2, Q st.A st.F → flipInner s ksh r ig st l = some st2 → Q st2.A st2.F := by
  induction l with
  | nil =>
    intro st st2 hst h
    simp only [flipInner] at h
    obtain rfl := Option.some.injEq .. ▸ h
    exact hst
  | cons jg rest ih =>
    intro st st2 hst h
    simp only [flipInner] at h
    by_cases hF : st.F ig jg = 0
    · rw [if_pos hF] at h
      by_cases ht : toss ksh (r st.k) = 1
      · rw [if_pos ht] at h
        set stg := SwitchGate { s with A := st.A, F := st.F } ig jg with hg
        have hQg : Q stg.1 stg.2.1 := hQ st.A st.F jg (List.mem_cons_self _ _) hst
        cases hPC : PathCount { s with A := stg.1, F := stg.2.1 } r (st.k + 1) with
        | none => rw [hPC] at h; cases h
        | some Nc =>
          rw [hPC] at h
          dsimp only at h
          by_cases hlt : Nc < st.Ncx
          · rw [if_pos hlt] at h
            dsimp only at h
            split_ifs at h with hbr
            · obtain rfl := Option.some.injEq .. ▸ h
              exact hst
            · refine ih (fun A F a ha => hQ A F a (List.mem_cons_of_mem _ ha)) _ _ ?_ h
              exact hst
          · rw [if_neg hlt] at h
            dsimp only at h
            split_ifs at h with hbr
            · obtain rfl := Option.some.injEq .. ▸ h
              exact hQg
            · refine ih (fun A F a ha => hQ A F a (List.mem_cons_of_mem _ ha)) _ _ ?_ h
              exact hQg
      · rw [if_neg ht] at h
        dsimp only at h
        split_ifs at h with hbr
        · obtain rfl := Option.some.injEq .. ▸ h
          exact hst
        · refine ih (fun A F a ha => hQ A F a (List.mem_cons_of_mem _ ha)) _ _ ?_ h
          exact hst
    · rw [if_neg hF] at h
      dsimp only at h
      split_ifs at h with hbr
      · obtain rfl := Option.some.injEq .. ▸ h
        exact hst
      · refine ih (fun A F a ha => hQ A F a (List.mem_cons_of_mem _ ha)) _ _ ?_ h
        exact hst

theorem flipOuter_Q (s : KolamDraw) (ksh : ℚ) (r : ℕ → ℕ)
    (Q : Mat → Mat → Prop) (l : List ℕ)
    (hQ : ∀ (A F : Mat) (ig jg : ℕ), ig ∈ l → jg ∈ List.range' ig (s.Nx - 1 - 2 * ig) →
      Q A F →
      Q (SwitchGate { s with A := A, F := F } ig jg).1
        (SwitchGate { s with A := A, F := F } ig jg).2.1) :
    ∀ st st2, Q st.A st.F → flipOuter s ksh r st l = some st2 → Q st2.A st2.F := by
  induction l with
  | nil =>
    intro st st2 hst h
    simp only [flipOuter] at h
    obtain rfl := Option.some.injEq .. ▸ h
    exact hst
  | cons ig rest ih =>
    intro st st2 hst h
    simp only [flipOuter] at h
    cases hin : flipInner s ksh r ig st (List.range' ig (s.Nx - 1 - 2 * ig)) with
    | none => rw [hin] at h; cases h
    | some stm =>
      rw [hin] at h
      have hm := flipInner_Q s ksh r ig Q _
        (fun A F jg hjg => hQ A F ig jg (List.mem_cons_self _ _) hjg) st stm hst hin
      exact ih (fun A F ig2 jg h2 hjg => hQ A F ig2 jg (List.mem_cons_of_mem _ h2) hjg)
        _ _ hm h

/-- Generic invariant-propagation through one `FlipTestSwitch` call: the
visited gate groups `(ig, jg)` satisfy `1 ≤ ig ≤ jg` and
`ig + jg ≤ Nx - 2`. -/
theorem flipTestSwitch_Q (s : KolamDraw) (ksh : ℚ) (iL iH : ℕ) (r : ℕ → ℕ) (k : ℕ)
    (Q : Mat → Mat → Prop)
    (hQ : ∀ (A F : Mat) (ig jg : ℕ), 1 ≤ ig → ig ≤ jg → ig + jg ≤ s.Nx - 2 →
      Q A F →
      Q (SwitchGate { s with A := A, F := F } ig jg).1
        (SwitchGate { s with A := A, F := F } ig jg).2.1)
    (st2 : FlipSt) (hst : Q s.A s.F)
    (h : FlipTestSwitch s ksh iL iH r k = some st2) : Q st2.A st2.F := by
  unfold FlipTestSwitch at h
  cases hPC : PathCount s r k with
  | none => rw [hPC] at h; cases h
  | some Ncx =>
    rw [hPC] at h
    dsimp only at h
    refine flipOuter_Q s ksh r Q _ ?_ _ st2 hst h
    intro A F ig jg hig hjg hq
    have h1 := List.mem_range'_1.1 hig
    have h2 := List.mem_range'_1.1 hjg
    have hNx2 : max (min iH (s.Nx / 2)) (max (min iL (s.Nx / 2)) 1) ≤ max (s.Nx / 2) 1 := by
      omega
    refine hQ A F ig jg (by omega) (by omega) (by omega) hq

/-- Generic per-trial property propagation through the `Dice` loop: if
every `AssignGates` output satisfies `P`, then both the session matrix and
the best-seen snapshot satisfy `P` at the end. -/
theorem diceLoop_P (s : KolamDraw) (krRef Kp Ki : ℚ) (r : ℕ → ℕ) (P : Mat → Prop)
    (hP : ∀ k, P (AssignGates s krRef Kp Ki r k).A) :
    ∀ fuel ith st out, P st.A → P st.Amax →
      diceLoop s krRef Kp Ki r ith fuel st = some out → P out.A ∧ P out.Amax := by
  intro fuel
  induction fuel with
  | zero =>
    intro ith st out hA hM h
    simp only [diceLoop] at h
    obtain rfl := Option.some.injEq .. ▸ h
    exact ⟨hA, hM⟩
  | succ n ih =>
    intro ith st out hA hM h
    simp only [diceLoop] at h
    cases htr : traceCycle
        { s with A := (AssignGates s krRef Kp Ki r st.k).A,
                 F := (AssignGates s krRef Kp Ki r st.k).F } 1 1 with
    | none => rw [htr] at h; cases h
    | some isx =>
      rw [htr] at h
      dsimp only at h
      have hA2 : P (AssignGates s krRef Kp Ki r st.k).A := hP st.k
      split_ifs at h
      all_goals try (cases h
                     constructor
                     all_goals try simp only [DiceSt.out]
                     all_goals try dsimp only
                     all_goals try split_ifs
                     all_goals first | exact hA2 | exact hM | assumption)
      all_goals try (refine ih _ _ _ ?_ ?_ h
                     all_goals try dsimp only
                     all_goals try split_ifs
                     all_goals first | exact hA2 | exact hM | assumption)

theorem dice_P (s : KolamDraw) (krRef Kp Ki : ℚ) (Nthr : ℕ) (r : ℕ → ℕ) (k : ℕ)
    (P : Mat → Prop) (hP : ∀ k2, P (AssignGates s krRef Kp Ki r k2).A)
    (hA : P s.A) (hM : P (fun _ _ => 99)) (out : DiceOut)
    (h : Dice s krRef Kp Ki Nthr r k = some out) : P out.A ∧ P out.Amax :=
  diceLoop_P s krRef Kp Ki r P hP Nthr 0 _ out hA hM h

/-! ### Claim C1 -/

/-- C1 (amended): under the `diamond` boundary profile, every gate matrix
produced by `ResetGateMatrix`, `AssignGates`, `Dice` (both the session
matrix and the best-seen snapshot `Amax`), `SwitchGate` (at in-range
indices, from a symmetric session) and `FlipTestSwitch` (from a symmetric
session) satisfies the four-fold symmetry
`A[i,j] = A[j,i] = A[Nx-1-i,Nx-1-j] = A[Nx-1-j,Nx-1-i]` at every pair of
in-range indices.  (The claim as stated over every boundary profile is
false: non-diamond masks are not symmetric, see `C1_counterexample`.) -/
theorem C1_amended_fourfold_symmetry :
    (∀ s : KolamDraw, s.boundary.isDiamond = true →
      FourSym s.Nx (ResetGateMatrix s).1) ∧
    (∀ (s : KolamDraw) (krRef Kp Ki : ℚ) (r : ℕ → ℕ) (k : ℕ),
      s.boundary.isDiamond = true →
      FourSym s.Nx (AssignGates s krRef Kp Ki r k).A) ∧
    (∀ (s : KolamDraw) (krRef Kp Ki : ℚ) (Nthr : ℕ) (r : ℕ → ℕ) (k : ℕ) (out : DiceOut),
      s.boundary.isDiamond = true → FourSym s.Nx s.A →
      Dice s krRef Kp Ki Nthr r k = some out →
      FourSym s.Nx out.A ∧ FourSym s.Nx out.Amax) ∧
    (∀ (s : KolamDraw) (ig jg : ℕ), ig ≤ s.Nx - 1 → jg ≤ s.Nx - 1 →
      FourSym s.Nx s.A → FourSym s.Nx (SwitchGate s ig jg).1) ∧
    (∀ (s : KolamDraw) (ksh : ℚ) (iL iH : ℕ) (r : ℕ → ℕ) (k : ℕ) (out : FlipSt),
      FourSym s.Nx s.A → FlipTestSwitch s ksh iL iH r k = some out →
      FourSym s.Nx out.A) := by
  refine ⟨reset_diamond_foursym, assignGates_foursym, ?_, switchGate_foursym, ?_⟩
  · intro s krRef Kp Ki Nthr r k out hb hA h
    exact dice_P s krRef Kp Ki Nthr r k (FourSym s.Nx)
      (fun k2 => assignGates_foursym s krRef Kp Ki r k2 hb) hA
      (fun p q _ _ => ⟨rfl, rfl, rfl⟩) out h
  · intro s ksh iL iH r k out hA h
    refine flipTestSwitch_Q s ksh iL iH r k (fun A F => FourSym s.Nx A) ?_ out hA h
    intro A F ig jg h1 h2 h3 hq
    exact switchGate_foursym { s with A := A, F := F } ig jg
      (show ig ≤ s.Nx - 1 by omega) (show jg ≤ s.Nx - 1 by omega) hq

/-- C1 counterexample: with the `corners` boundary profile and `ND = 5`,
the freshly reset gate matrix already violates the claimed symmetry at
`(i, j) = (1, 3)`: the cell is unassigned (`99`) while its 180-degree
image `(Nx-1-1, Nx-1-3) = (4, 2)` has been masked to `0`. -/
theorem C1_counterexample :
    (ResetGateMatrix (KolamDraw.init 5 Boundary.corners)).1 1 3 = 99 ∧
    (ResetGateMatrix (KolamDraw.init 5 Boundary.corners)).1 4 2 = 0 ∧
    (ResetGateMatrix (KolamDraw.init 5 Boundary.corners)).1 1 3 ≠
      (ResetGateMatrix (KolamDraw.init 5 Boundary.corners)).1 4 2 := by
  refine ⟨by decide, by decide, by decide⟩

/-- Witness for `C1_amended_fourfold_symmetry` at `ND = 5`. -/
theorem C1_witness :
    (KolamDraw.init 5 Boundary.diamond).boundary.isDiamond = true ∧
    FourSym (KolamDraw.init 5 Boundary.diamond).Nx
      (ResetGateMatrix (KolamDraw.init 5 Boundary.diamond)).1 :=
  ⟨by decide, C1_amended_fourfold_symmetry.1 _ (by decide)⟩

/-! ### Claim C5 -/

theorem flipInner_mono (s : KolamDraw) (ksh : ℚ) (r : ℕ → ℕ) (ig : ℕ) (l : List ℕ) :
    ∀ st st2, flipInner s ksh r ig st l = some st2 → st.Ncx ≤ st2.Ncx := by
  induction l with
  | nil =>
    intro st st2 h
    simp only [flipInner] at h
    cases h
    exact le_refl _
  | cons jg rest ih =>
    intro st st2 h
    simp only [flipInner] at h
    by_cases hF : st.F ig jg = 0
    · rw [if_pos hF] at h
      by_cases ht : toss ksh (r st.k) = 1
      · rw [if_pos ht] at h
        cases hPC : PathCount
            { s with
              A := (SwitchGate { s with A := st.A, F := st.F } ig jg).1,
              F := (SwitchGate { s with A := st.A, F := st.F } ig jg).2.1 } r (st.k + 1) with
        | none => rw [hPC] at h; cases h
        | some Nc =>
          rw [hPC] at h
          dsimp only at h
          by_cases hlt : Nc < st.Ncx
          · rw [if_pos hlt] at h
            dsimp only at h
            split_ifs at h with hbr
            · cases h; exact le_refl _
            · have hx := ih _ _ h
              exact hx
          · rw [if_neg hlt] at h
            dsimp only at h
            split_ifs at h with hbr
            · cases h
              exact le_of_not_lt hlt
            · have hx := ih _ _ h
              exact le_trans (le_of_not_lt hlt) hx
      · rw [if_neg ht] at h
        dsimp only at h
        split_ifs at h with hbr
        · cases h; exact le_refl _
        · have hx := ih _ _ h
          exact hx
    · rw [if_neg hF] at h
      dsimp only at h
      split_ifs at h with hbr
      · cases h; exact le_refl _
      · have hx := ih _ _ h
        exact hx

theorem flipOuter_mono (s : KolamDraw) (ksh : ℚ) (r : ℕ → ℕ) (l : List ℕ) :
    ∀ st st2, flipOuter s ksh r st l = some st2 → st.Ncx ≤ st2.Ncx := by
  induction l with
  | nil =>
    intro st st2 h
    simp only [flipOuter] at h
    cases h
    exact le_refl _
  | cons ig rest ih =>
    intro st st2 h
    simp only [flipOuter] at h
    cases hin : flipInner s ksh r ig st (List.range' ig (s.Nx - 1 - 2 * ig)) with
    | none => rw [hin] at h; cases h
    | some stm =>
      rw [hin] at h
      exact le_trans (flipInner_mono s ksh r ig _ st stm hin) (ih _ _ h)

/-- C5: across one full `FlipTestSwitch` sweep, the returned best cycle
length is never smaller than the cycle length measured on the gate matrix
at entry: toggles that decrease the measured length are reverted, all
others are kept and raise the recorded best. -/
theorem C5_sweep_monotone (s : KolamDraw) (ksh : ℚ) (iL iH : ℕ) (r : ℕ → ℕ) (k : ℕ)
    (out : FlipSt) (h : FlipTestSwitch s ksh iL iH r k = some out) :
    ∃ n0, PathCount s r k = some n0 ∧ n0 ≤ out.Ncx := by
  unfold FlipTestSwitch at h
  cases hPC : PathCount s r k with
  | none => rw [hPC] at h; cases h
  | some n0 =>
    rw [hPC] at h
    dsimp only at h
    exact ⟨n0, rfl, flipOuter_mono s ksh r _ _ out h⟩

/-- Witness for `C5_sweep_monotone`: a concrete `ND = 1` session with an
all-closed gate matrix (the clamped row range is empty, the entry
measurement is a 4-step cycle). -/
theorem C5_witness :
    FlipTestSwitch (KolamDraw.mk 1 Boundary.diamond (fun _ _ => 0) (fun _ _ => 0))
        (1 / 2) 1 1 (fun _ => 999) 0 =
      some { A := fun _ _ => 0, F := fun _ _ => 0, Ncx := 4, k := 2, evs := [] } ∧
    (4 : ℕ) ≤ 4 := by
  constructor
  · rfl
  · obtain ⟨n0, h1, h2⟩ := C5_sweep_monotone
      (KolamDraw.mk 1 Boundary.diamond (fun _ _ => 0) (fun _ _ => 0))
      (1 / 2) 1 1 (fun _ => 999) 0
      { A := fun _ _ => 0, F := fun _ _ => 0, Ncx := 4, k := 2, evs := [] } (by rfl)
    have hn : n0 = 4 := by
      rw [show PathCount (KolamDraw.mk 1 Boundary.diamond (fun _ _ => 0) (fun _ _ => 0))
          (fun _ => 999) 0 = some 4 from rfl] at h1
      exact (Option.some.injEq .. ▸ h1).symm
    exact hn ▸ h2

/-! ### Claims C9 and C10 -/

/-- C9: the path automaton step is a pure function of the position, the
direction code, the grid dimension and the gate matrix: sessions that
agree on `ND` and `A` (but may differ in `F`, the boundary profile, or any
other session state) produce identical `NextStep` results, and no random
stream is consumed. -/
theorem C9_nextstep_deterministic (s t : KolamDraw) (icg jcg ce : ℤ)
    (hnd : s.ND = t.ND) (hA : s.A = t.A) :
    NextStep s icg jcg ce = NextStep t icg jcg ce := by
  obtain ⟨nd, b1, A1, F1⟩ := s
  obtain ⟨nd2, b2, A2, F2⟩ := t
  dsimp only at hnd hA
  subst hnd
  subst hA
  rfl

/-- Witness for `C9_nextstep_deterministic`: two sessions differing in
boundary profile and flag matrix step identically. -/
theorem C9_witness :
    NextStep (KolamDraw.mk 5 Boundary.diamond (fun _ _ => 1) (fun _ _ => 1)) 1 1 0 =
    NextStep (KolamDraw.mk 5 Boundary.corners (fun _ _ => 1) (fun _ _ => 0)) 1 1 0 :=
  C9_nextstep_deterministic _ _ 1 1 0 rfl rfl

/-- C10: whenever the current position lies in `[-ND, ND+1]` on both axes,
the halved shifted gate index used by `NextStep` lies in `[0, Nx-1]` on
both axes, and the gate lookup of `NextStep` succeeds (no wrap-around and
no `IndexError`), for every direction code. -/
theorem C10_lookup_in_bounds (s : KolamDraw) (icg jcg ce : ℤ)
    (h1 : -(s.ND : ℤ) ≤ icg) (h2 : icg ≤ (s.ND : ℤ) + 1)
    (h3 : -(s.ND : ℤ) ≤ jcg) (h4 : jcg ≤ (s.ND : ℤ) + 1) :
    (0 ≤ gateIdx s.ND icg ∧ gateIdx s.ND icg ≤ (s.Nx : ℤ) - 1) ∧
    (0 ≤ gateIdx s.ND jcg ∧ gateIdx s.ND jcg ≤ (s.Nx : ℤ) - 1) ∧
    (NextStep s icg jcg ce).isSome = true := by
  have hfd : ∀ x : ℤ, gateIdx s.ND x = (x + s.ND) / 2 := fun x =>
    Int.fdiv_eq_ediv _ (by omega)
  have hi : 0 ≤ gateIdx s.ND icg ∧ gateIdx s.ND icg ≤ (s.Nx : ℤ) - 1 := by
    rw [hfd]
    unfold KolamDraw.Nx
    constructor <;> omega
  have hj : 0 ≤ gateIdx s.ND jcg ∧ gateIdx s.ND jcg ≤ (s.Nx : ℤ) - 1 := by
    rw [hfd]
    unfold KolamDraw.Nx
    constructor <;> omega
  refine ⟨hi, hj, ?_⟩
  have hni : npIdx s.Nx (gateIdx s.ND icg) = some (gateIdx s.ND icg).toNat := by
    unfold npIdx
    rw [if_pos ⟨hi.1, by omega⟩]
  have hnj : npIdx s.Nx (gateIdx s.ND jcg) = some (gateIdx s.ND jcg).toNat := by
    unfold npIdx
    rw [if_pos ⟨hj.1, by omega⟩]
  simp only [NextStep, npGet, hni, hnj]
  rfl

/-- Witness for `C10_lookup_in_bounds` at `ND = 5`, position `(1, 1)`,
code `0`. -/
theorem C10_witness :
    ((0 : ℤ) ≤ gateIdx 5 1 ∧ gateIdx 5 1 ≤ (6 : ℤ) - 1) ∧
    ((0 : ℤ) ≤ gateIdx 5 1 ∧ gateIdx 5 1 ≤ (6 : ℤ) - 1) ∧
    (NextStep (KolamDraw.mk 5 Boundary.diamond (fun _ _ => 1) (fun _ _ => 1)) 1 1 0).isSome
      = true :=
  C10_lookup_in_bounds (KolamDraw.mk 5 Boundary.diamond (fun _ _ => 1) (fun _ _ => 1))
    1 1 0 (by decide) (by decide) (by decide) (by decide)

/-! ### Claim C6: the anti-isolation rule of `AssignGates` -/

/-- All events of an assignment log obey the anti-isolation rule: a cell
whose three already-assigned above/left neighbours sum below `0.1` is
stored as `OPEN`. -/
def GoodEvs (evs : List AsgEv) : Prop :=
  ∀ e ∈ evs, e.nbSum < 1 / 10 → e.value = 1

/-- Flag matrix holds only the boolean values `0` and `1`. -/
def Fbool (F : Mat) : Prop := ∀ p q, F p q = 0 ∨ F p q = 1

theorem storeGroup_F (st : AsgSt) (a1 b1 a2 b2 a3 b3 a4 b4 p0 q0 : ℕ) (nb v : ℚ) :
    (storeGroup st a1 b1 a2 b2 a3 b3 a4 b4 p0 q0 nb v).F =
      mset4 st.F a1 b1 a2 b2 a3 b3 a4 b4 0 := by
  unfold storeGroup
  dsimp only
  split <;> rfl

theorem storeGroup_evs (st : AsgSt) (a1 b1 a2 b2 a3 b3 a4 b4 p0 q0 : ℕ) (nb v : ℚ) :
    (storeGroup st a1 b1 a2 b2 a3 b3 a4 b4 p0 q0 nb v).evs =
      st.evs ++ [⟨p0, q0, nb, v⟩] := by
  unfold storeGroup
  dsimp only
  split <;> rfl

/-- Every flag store performed by the assignment sites writes `0`. -/
theorem asgBody_F_zero (s : KolamDraw) (krRef Kp Ki : ℚ) (r : ℕ → ℕ)
    (st : AsgSt) (ij : ℕ × ℕ) (p q : ℕ) :
    (asgBody s krRef Kp Ki r st ij).F p q = 0 ∨
    (asgBody s krRef Kp Ki r st ij).F p q = st.F p q := by
  obtain ⟨i, j⟩ := ij
  have hsite : ∀ (st2 : AsgSt) (kr : ℚ),
      ((asgSite12 s kr r i j st2).F p q = 0 ∨ (asgSite12 s kr r i j st2).F p q = st2.F p q) ∧
      ((asgSite3 s kr r i j st2).F p q = 0 ∨ (asgSite3 s kr r i j st2).F p q = st2.F p q) ∧
      ((asgSite4 s kr r i j st2).F p q = 0 ∨ (asgSite4 s kr r i j st2).F p q = st2.F p q) := by
    intro st2 kr
    refine ⟨?_, ?_, ?_⟩
    · unfold asgSite12
      dsimp only
      rw [storeGroup_F]
      rcases mset4_cases (storeGroup _ _ _ _ _ _ _ _ _ _ _ _ _).F i (j + 1) (j + 1) i
          (s.Nx - 1 - i) (s.Nx - 1 - 1 - j) (s.Nx - 1 - 1 - j) (s.Nx - 1 - i) p q 0 with h | h
      · exact Or.inl h
      · rw [h, storeGroup_F]
        rcases mset4_cases st2.F i j j i (s.Nx - 1 - i) (s.Nx - 1 - j) (s.Nx - 1 - j)
            (s.Nx - 1 - i) p q 0 with h2 | h2
        · exact Or.inl h2
        · exact Or.inr h2
    · unfold asgSite3
      dsimp only
      rw [storeGroup_F]
      rcases mset4_cases st2.F i j j i (s.Nx - 1 - i) (s.Nx - 1 - j) (s.Nx - 1 - j)
          (s.Nx - 1 - i) p q 0 with h | h
      · exact Or.inl h
      · exact Or.inr h
    · unfold asgSite4
      dsimp only
      rw [storeGroup_F]
      rcases mset4_cases st2.F i (j + 1) (j + 1) i (s.Nx - 1 - i) (s.Nx - 1 - 1 - j)
          (s.Nx - 1 - 1 - j) (s.Nx - 1 - i) p q 0 with h | h
      · exact Or.inl h
      · exact Or.inr h
  unfold asgBody asgDispatch
  dsimp only
  set st0 : AsgSt := asgPI krRef Kp Ki st with hst0
  have hst0F : st0.F = st.F := rfl
  by_cases c1 : st0.F i j = 1
  · rw [if_pos c1]
    by_cases c2 : st0.F i (j + 1) = 1
    · rw [if_pos c2]
      set stM : AsgSt := asgSite12 s st0.kr r i j st0 with hM
      have h12 := (hsite st0 st0.kr).1
      by_cases c3 : stM.F i (j + 1) = 0
      · rw [if_pos c3]
        set stI : AsgSt := asgSite3 s st0.kr r i j stM with hI
        have h3 := (hsite stM st0.kr).2.1
        by_cases c4 : stI.F i j = 0
        · rw [if_pos c4]
          by_cases c5 : stI.F i (j + 1) = 1
          · rw [if_pos c5]
            rcases (hsite stI st0.kr).2.2 with h4 | h4
            · exact Or.inl h4
            · rw [h4]
              rcases h3 with h3 | h3
              · exact Or.inl h3
              · rw [h3]
                rcases h12 with h12 | h12
                · exact Or.inl h12
                · rw [h12, hst0F]
                  exact Or.inr rfl
          · rw [if_neg c5]
            rcases h3 with h3 | h3
            · exact Or.inl h3
            · rw [h3]
              rcases h12 with h12 | h12
              · exact Or.inl h12
              · rw [h12, hst0F]
                exact Or.inr rfl
        · rw [if_neg c4]
          rcases h3 with h3 | h3
          · exact Or.inl h3
          · rw [h3]
            rcases h12 with h12 | h12
            · exact Or.inl h12
            · rw [h12, hst0F]
              exact Or.inr rfl
      · rw [if_neg c3]
        by_cases c4 : stM.F i j = 0
        · rw [if_pos c4]
          by_cases c5 : stM.F i (j + 1) = 1
          · rw [if_pos c5]
            rcases (hsite stM st0.kr).2.2 with h4 | h4
            · exact Or.inl h4
            · rw [h4]
              rcases h12 with h12 | h12
              · exact Or.inl h12
              · rw [h12, hst0F]
                exact Or.inr rfl
          · rw [if_neg c5]
            rcases h12 with h12 | h12
            · exact Or.inl h12
            · rw [h12, hst0F]
              exact Or.inr rfl
        · rw [if_neg c4]
          rcases h12 with h12 | h12
          · exact Or.inl h12
          · rw [h12, hst0F]
            exact Or.inr rfl
    · rw [if_neg c2]
      by_cases c3 : st0.F i (j + 1) = 0
      · rw [if_pos c3]
        set stI : AsgSt := asgSite3 s st0.kr r i j st0 with hI
        have h3 := (hsite st0 st0.kr).2.1
        by_cases c4 : stI.F i j = 0
        · rw [if_pos c4]
          by_cases c5 : stI.F i (j + 1) = 1
          · rw [if_pos c5]
            rcases (hsite stI st0.kr).2.2 with h4 | h4
            · exact Or.inl h4
            · rw [h4]
              rcases h3 with h3 | h3
              · exact Or.inl h3
              · rw [h3, hst0F]
                exact Or.inr rfl
          · rw [if_neg c5]
            rcases h3 with h3 | h3
            · exact Or.inl h3
            · rw [h3, hst0F]
              exact Or.inr rfl
        · rw [if_neg c4]
          rcases h3 with h3 | h3
          · exact Or.inl h3
          · rw [h3, hst0F]
            exact Or.inr rfl
      · rw [if_neg c3]
        by_cases c4 : st0.F i j = 0
        · rw [if_pos c4]
          by_cases c5 : st0.F i (j + 1) = 1
          · rw [if_pos c5]
            rcases (hsite st0 st0.kr).2.2 with h4 | h4
            · exact Or.inl h4
            · rw [h4, hst0F]
              exact Or.inr rfl
          · rw [if_neg c5]
            rw [hst0F]
            exact Or.inr rfl
        · rw [if_neg c4]
          rw [hst0F]
          exact Or.inr rfl
  · rw [if_neg c1]
    by_cases c4 : st0.F i j = 0
    · rw [if_pos c4]
      by_cases c5 : st0.F i (j + 1) = 1
      · rw [if_pos c5]
        rcases (hsite st0 st0.kr).2.2 with h4 | h4
        · exact Or.inl h4
        · rw [h4, hst0F]
          exact Or.inr rfl
      · rw [if_neg c5]
        rw [hst0F]
        exact Or.inr rfl
    · rw [if_neg c4]
      rw [hst0F]
      exact Or.inr rfl

/-- When the flag at the visited cell is already `0`, one `AssignGates`
iteration reduces to the single live `F[i,j] == 0` branch: afterwards the
flag at `(i, j+1)` is clear, and at most one event was appended, for the
primary cell `(i, j+1)`, whose value is forced to `1` whenever its
recorded neighbour sum is below `0.1`. -/
theorem asgBody_live (s : KolamDraw) (krRef Kp Ki : ℚ) (r : ℕ → ℕ)
    (st : AsgSt) (i j : ℕ) (h0 : st.F i j = 0) (hFb : Fbool st.F) :
    (asgBody s krRef Kp Ki r st (i, j)).F i (j + 1) = 0 ∧
    ((asgBody s krRef Kp Ki r st (i, j)).evs = st.evs ∨
      ∃ sum x : ℚ, (sum < 1 / 10 → x = 1) ∧
        (asgBody s krRef Kp Ki r st (i, j)).evs = st.evs ++ [⟨i, j + 1, sum, x⟩]) := by
  unfold asgBody asgDispatch
  dsimp only
  set st0 : AsgSt := asgPI krRef Kp Ki st with hst0
  have hst0F : st0.F = st.F := rfl
  have c1 : ¬st0.F i j = 1 := by
    rw [hst0F, h0]
    intro hc
    exact absurd hc.symm (by norm_num)
  rw [if_neg c1, if_pos (by rw [hst0F]; exact h0)]
  by_cases c5 : st0.F i (j + 1) = 1
  · rw [if_pos c5]
    constructor
    · unfold asgSite4
      dsimp only
      rw [storeGroup_F]
      exact mset4_hit (Or.inl ⟨rfl, rfl⟩)
    · right
      refine ⟨st0.A (i - 1) j + st0.A (i - 1) (j + 1) + st0.A i j,
        if st0.A (i - 1) j + st0.A (i - 1) (j + 1) + st0.A i j < 1 / 10 then 1
          else toss st0.kr (r st0.k), fun hs => if_pos hs, ?_⟩
      unfold asgSite4
      dsimp only
      rw [storeGroup_evs]
      rfl
  · rw [if_neg c5]
    refine ⟨?_, Or.inl rfl⟩
    rw [hst0F] at c5 ⊢
    rcases hFb i (j + 1) with h | h
    · exact h
    · exact absurd h c5

/-- `Fbool` is preserved by one loop iteration. -/
theorem asgBody_Fbool (s : KolamDraw) (krRef Kp Ki : ℚ) (r : ℕ → ℕ)
    (st : AsgSt) (ij : ℕ × ℕ) (hFb : Fbool st.F) :
    Fbool (asgBody s krRef Kp Ki r st ij).F := by
  intro p q
  rcases asgBody_F_zero s krRef Kp Ki r st ij p q with h | h
  · exact Or.inl h
  · rw [h]
    exact hFb p q

/-- Zero flags are never raised by one loop iteration. -/
theorem asgBody_Fmono (s : KolamDraw) (krRef Kp Ki : ℚ) (r : ℕ → ℕ)
    (st : AsgSt) (ij : ℕ × ℕ) (p q : ℕ) (h : st.F p q = 0) :
    (asgBody s krRef Kp Ki r st ij).F p q = 0 := by
  rcases asgBody_F_zero s krRef Kp Ki r st ij p q with h2 | h2
  · exact h2
  · rw [h2, h]

/-- `GoodEvs` is preserved by one live loop iteration. -/
theorem asgBody_good (s : KolamDraw) (krRef Kp Ki : ℚ) (r : ℕ → ℕ)
    (st : AsgSt) (i j : ℕ) (h0 : st.F i j = 0) (hFb : Fbool st.F)
    (hg : GoodEvs st.evs) : GoodEvs (asgBody s krRef Kp Ki r st (i, j)).evs := by
  rcases (asgBody_live s krRef Kp Ki r st i j h0 hFb).2 with h | ⟨sum, x, hx, h⟩
  · rw [h]
    exact hg
  · rw [h]
    intro e he
    rcases List.mem_append.1 he with he | he
    · exact hg e he
    · obtain rfl := List.mem_singleton.1 he
      exact hx

/-- One row of the `AssignGates` sweep, starting at a column whose flag is
already clear: preserves `GoodEvs`, `Fbool`, and never raises a flag. -/
theorem asgRow (s : KolamDraw) (krRef Kp Ki : ℚ) (r : ℕ → ℕ) (i : ℕ) :
    ∀ (len j0 : ℕ) (st : AsgSt), st.F i j0 = 0 → Fbool st.F → GoodEvs st.evs →
    GoodEvs (((List.range' j0 len).map (fun j => (i, j))).foldl
        (asgBody s krRef Kp Ki r) st).evs ∧
    Fbool (((List.range' j0 len).map (fun j => (i, j))).foldl
        (asgBody s krRef Kp Ki r) st).F ∧
    (∀ p q, st.F p q = 0 → (((List.range' j0 len).map (fun j => (i, j))).foldl
        (asgBody s krRef Kp Ki r) st).F p q = 0) := by
  intro len
  induction len with
  | zero => exact fun j0 st h0 hFb hg => ⟨hg, hFb, fun p q h => h⟩
  | succ n ih =>
    intro j0 st h0 hFb hg
    rw [List.range'_succ, List.map_cons, List.foldl_cons]
    have hlive := asgBody_live s krRef Kp Ki r st i j0 h0 hFb
    have hnext := ih (j0 + 1) (asgBody s krRef Kp Ki r st (i, j0)) hlive.1
      (asgBody_Fbool s krRef Kp Ki r st (i, j0) hFb)
      (asgBody_good s krRef Kp Ki r st i j0 h0 hFb hg)
    refine ⟨hnext.1, hnext.2.1, ?_⟩
    intro p q h
    exact hnext.2.2 p q (asgBody_Fmono s krRef Kp Ki r st (i, j0) p q h)

/-- The full row-major `AssignGates` sweep, given clear flags on the main
diagonal at every row start. -/
theorem asgRows (s : KolamDraw) (krRef Kp Ki : ℚ) (r : ℕ → ℕ) :
    ∀ (rl : List ℕ) (st : AsgSt), (∀ i ∈ rl, st.F i i = 0) → Fbool st.F →
      GoodEvs st.evs →
    GoodEvs ((rl.flatMap fun i => (List.range' i (s.Nx - 2 * i)).map fun j => (i, j)).foldl
      (asgBody s krRef Kp Ki r) st).evs := by
  intro rl
  induction rl with
  | nil => exact fun st _ _ hg => hg
  | cons i t ih =>
    intro st hdiag hFb hg
    rw [List.flatMap_cons, List.foldl_append]
    have hrow := asgRow s krRef Kp Ki r i (s.Nx - 2 * i) i st
      (hdiag i (List.mem_cons_self _ _)) hFb hg
    exact ih _ (fun i2 h2 => hrow.2.2 i2 i2 (hdiag i2 (List.mem_cons_of_mem _ h2)))
      hrow.2.1 hrow.1

/-- C6: every gate value stored by `AssignGates` obeys the anti-isolation
rule: whenever the sum of the three already-assigned neighbour gates
immediately above/left of the stored cell is below `0.1`, the stored value
is `OPEN (1)` rather than the outcome of a toss.  This holds for every
grid size, boundary profile, controller setting and random stream. -/
theorem C6_anti_isolation (s : KolamDraw) (krRef Kp Ki : ℚ) (r : ℕ → ℕ) (k : ℕ) :
    ∀ e ∈ (AssignGates s krRef Kp Ki r k).evs, e.nbSum < 1 / 10 → e.value = 1 := by
  have h : GoodEvs (AssignGates s krRef Kp Ki r k).evs := by
    unfold AssignGates asgPairs
    dsimp only
    refine asgRows s krRef Kp Ki r _ _ ?_ ?_ ?_
    · intro i hi
      have hb := List.mem_range'_1.1 hi
      exact (reset_F_diag s hb.1 (by omega)).1
    · exact fun p q => reset_F_bool s p q
    · intro e he
      cases he
  exact h

/-- Witness for `C6_anti_isolation`: at `ND = 5` with an all-zero toss
stream, the cell `(1, 3)` has all three above/left neighbours closed and
is forced `OPEN`. -/
theorem C6_witness :
    (⟨1, 3, 0, 1⟩ : AsgEv) ∈ (AssignGates (KolamDraw.init 5 Boundary.diamond)
      1 (1 / 100) (1 / 10000) (fun _ => 0) 0).evs ∧
    (⟨1, 3, 0, 1⟩ : AsgEv).value = 1 :=
  ⟨by decide, C6_anti_isolation (KolamDraw.init 5 Boundary.diamond)
    1 (1 / 100) (1 / 10000) (fun _ => 0) 0 ⟨1, 3, 0, 1⟩ (by decide) (by decide)⟩

/-! ### Claim C2: border / diagonal fixed-point -/

/-- Value of the coupled-cell chained store (column `j + 1` of a pair),
whose source expression writes column `Nx - 1 - 1 - j` for the 180-degree
image. -/
theorem mset4_orb2 (M : Mat) (n i j p q : ℕ) (v : ℚ) :
    mset4 M i (j + 1) (j + 1) i (n - i) (n - 1 - j) (n - 1 - j) (n - i) v p q =
      if orbMem n i (j + 1) p q then v else M p q := by
  have h : n - 1 - j = n - (j + 1) := by omega
  rw [h]
  exact mset4_orb M n i (j + 1) p q v

/-- The cells whose values the specification pins after initialization:
the border rows / columns, the main diagonal and the anti-diagonal. -/
def ProtCell (Nx p q : ℕ) : Prop :=
  borderCell Nx p q ∨ p = q ∨ p + q = Nx - 1

instance (Nx p q : ℕ) : Decidable (ProtCell Nx p q) := by
  unfold ProtCell
  infer_instance

/-- The protected-cell invariant: every protected cell is permanently
fixed (`F = 0`) and holds its initialization value (`CLOSED` on the
border, `OPEN` on the two diagonals). -/
def ProtInv (Nx : ℕ) (A F : Mat) : Prop :=
  ∀ p q, p < Nx → q < Nx → ProtCell Nx p q →
    F p q = 0 ∧ A p q = (if borderCell Nx p q then 0 else 1)

/-- A cell of the symmetry orbit of a protected cell has a protected
representative. -/
theorem prot_orb {Nx a b p q : ℕ} (ha : a ≤ Nx - 1) (hb : b ≤ Nx - 1)
    (hp : p < Nx) (hq : q < Nx) (hm : orbMem (Nx - 1) a b p q)
    (hprot : ProtCell Nx p q) : ProtCell Nx a b := by
  unfold orbMem at hm
  unfold ProtCell borderCell at hprot ⊢
  omega

/-- The freshly reset matrices satisfy the protected-cell invariant under
the diamond profile. -/
theorem reset_protinv (s : KolamDraw) (hb : s.boundary.isDiamond = true) :
    ProtInv s.Nx (ResetGateMatrix s).1 (ResetGateMatrix s).2 := by
  intro p q hp hq hprot
  by_cases hbc : borderCell s.Nx p q
  · rw [if_pos hbc]
    exact ⟨(reset_border s hp hq hbc).2, (reset_border s hp hq hbc).1⟩
  · rw [if_neg hbc]
    have hb2 : p ≠ 0 ∧ p ≠ s.Nx - 1 ∧ q ≠ 0 ∧ q ≠ s.Nx - 1 := by
      unfold borderCell at hbc
      push_neg at hbc
      exact hbc
    rcases hprot with h | h | h
    · exact absurd h hbc
    · obtain rfl := h
      refine ⟨(reset_F_diag s (by omega) (by omega)).1, ?_⟩
      exact (reset_diag_anti s (i := p) (by omega) (by omega) hb).1
    · have hq2 : q = s.Nx - 1 - p := by omega
      subst hq2
      refine ⟨(reset_F_diag s (i := p) (by omega) (by omega)).2, ?_⟩
      exact (reset_diag_anti s (i := p) (by omega) (by omega) hb).2.1

/-- A fixed-cell invariant parameterised by a protected cell set `C` and a
pinned value matrix `v`: every in-range `C`-cell has flag `0` and holds the
value `v` prescribes. -/
def FixInv (Nx : ℕ) (C : ℕ → ℕ → Prop) (v : Mat) (A F : Mat) : Prop :=
  ∀ p q, p < Nx → q < Nx → C p q → F p q = 0 ∧ A p q = v p q

/-- `C` is closed under the four-fold symmetry orbit: when a cell of the
orbit of `(a, b)` lies in `C`, so does `(a, b)` itself. -/
def OrbClosed (Nx : ℕ) (C : ℕ → ℕ → Prop) : Prop :=
  ∀ a b p q, a ≤ Nx - 1 → b ≤ Nx - 1 → p < Nx → q < Nx →
    orbMem (Nx - 1) a b p q → C p q → C a b

theorem prot_orbClosed (Nx : ℕ) : OrbClosed Nx (ProtCell Nx) :=
  fun _ _ _ _ ha hb hp hq hm h => prot_orb ha hb hp hq hm h

theorem border_orbClosed (Nx : ℕ) : OrbClosed Nx (borderCell Nx) := by
  intro a b p q ha hb hp hq hm h
  unfold orbMem at hm
  unfold borderCell at h ⊢
  omega

/-- The border invariant: every border cell is fixed (`F = 0`) and closed
(`A = 0`).  Holds for every boundary profile. -/
def BorderFix (Nx : ℕ) (A F : Mat) : Prop :=
  ∀ p q, p < Nx → q < Nx → borderCell Nx p q → F p q = 0 ∧ A p q = 0

/-- The freshly reset matrices satisfy the border invariant under every
boundary profile. -/
theorem reset_borderfix (s : KolamDraw) :
    BorderFix s.Nx (ResetGateMatrix s).1 (ResetGateMatrix s).2 :=
  fun p q hp hq hc => ⟨(reset_border s hp hq hc).2, (reset_border s hp hq hc).1⟩

theorem asgSite12_fix {s : KolamDraw} {C : ℕ → ℕ → Prop} {v : Mat} {kr : ℚ}
    {r : ℕ → ℕ} {i j : ℕ} {st : AsgSt} (hOrb : OrbClosed s.Nx C)
    (hInv : FixInv s.Nx C v st.A st.F) (hi : i ≤ s.Nx - 1) (hj1 : j + 1 ≤ s.Nx - 1)
    (hnp1 : ¬C i j) (hnp2 : ¬C i (j + 1)) :
    FixInv s.Nx C v (asgSite12 s kr r i j st).A (asgSite12 s kr r i j st).F := by
  intro p q hp hq hprot
  have hmiss1 : ¬orbMem (s.Nx - 1) i j p q := fun hm =>
    hnp1 (hOrb i j p q hi (by omega) hp hq hm hprot)
  have hmiss2 : ¬orbMem (s.Nx - 1) i (j + 1) p q := fun hm =>
    hnp2 (hOrb i (j + 1) p q hi hj1 hp hq hm hprot)
  have hA : (asgSite12 s kr r i j st).A p q = st.A p q := by
    unfold asgSite12
    dsimp only
    rw [storeGroup_A, mset4_orb2, if_neg hmiss2, storeGroup_A, mset4_orb, if_neg hmiss1]
  have hF : (asgSite12 s kr r i j st).F p q = st.F p q := by
    unfold asgSite12
    dsimp only
    rw [storeGroup_F, mset4_orb2, if_neg hmiss2, storeGroup_F, mset4_orb, if_neg hmiss1]
  rw [hA, hF]
  exact hInv p q hp hq hprot

theorem asgSite3_fix {s : KolamDraw} {C : ℕ → ℕ → Prop} {v : Mat} {kr : ℚ}
    {r : ℕ → ℕ} {i j : ℕ} {st : AsgSt} (hOrb : OrbClosed s.Nx C)
    (hInv : FixInv s.Nx C v st.A st.F) (hi : i ≤ s.Nx - 1) (hj : j ≤ s.Nx - 1)
    (hnp1 : ¬C i j) :
    FixInv s.Nx C v (asgSite3 s kr r i j st).A (asgSite3 s kr r i j st).F := by
  intro p q hp hq hprot
  have hmiss1 : ¬orbMem (s.Nx - 1) i j p q := fun hm =>
    hnp1 (hOrb i j p q hi hj hp hq hm hprot)
  have hA : (asgSite3 s kr r i j st).A p q = st.A p q := by
    unfold asgSite3
    dsimp only
    rw [storeGroup_A, mset4_orb, if_neg hmiss1]
  have hF : (asgSite3 s kr r i j st).F p q = st.F p q := by
    unfold asgSite3
    dsimp only
    rw [storeGroup_F, mset4_orb, if_neg hmiss1]
  rw [hA, hF]
  exact hInv p q hp hq hprot

theorem asgSite4_fix {s : KolamDraw} {C : ℕ → ℕ → Prop} {v : Mat} {kr : ℚ}
    {r : ℕ → ℕ} {i j : ℕ} {st : AsgSt} (hOrb : OrbClosed s.Nx C)
    (hInv : FixInv s.Nx C v st.A st.F) (hi : i ≤ s.Nx - 1) (hj1 : j + 1 ≤ s.Nx - 1)
    (hnp2 : ¬C i (j + 1)) :
    FixInv s.Nx C v (asgSite4 s kr r i j st).A (asgSite4 s kr r i j st).F := by
  intro p q hp hq hprot
  have hmiss2 : ¬orbMem (s.Nx - 1) i (j + 1) p q := fun hm =>
    hnp2 (hOrb i (j + 1) p q hi hj1 hp hq hm hprot)
  have hA : (asgSite4 s kr r i j st).A p q = st.A p q := by
    unfold asgSite4
    dsimp only
    rw [storeGroup_A, mset4_orb2, if_neg hmiss2]
  have hF : (asgSite4 s kr r i j st).F p q = st.F p q := by
    unfold asgSite4
    dsimp only
    rw [storeGroup_F, mset4_orb2, if_neg hmiss2]
  rw [hA, hF]
  exact hInv p q hp hq hprot

theorem asgDispatch_fix (s : KolamDraw) (C : ℕ → ℕ → Prop) (v : Mat) (kr : ℚ)
    (r : ℕ → ℕ) (i j : ℕ) (st : AsgSt) (hOrb : OrbClosed s.Nx C)
    (hi : 1 ≤ i) (hi2 : i ≤ s.Nx - 1) (hj : i ≤ j) (hj1 : j + 1 ≤ s.Nx - 1)
    (hInv : FixInv s.Nx C v st.A st.F) :
    FixInv s.Nx C v (asgDispatch s kr r i j st).A (asgDispatch s kr r i j st).F := by
  have hpq : i < s.Nx ∧ j < s.Nx ∧ j + 1 < s.Nx := by omega
  unfold asgDispatch
  dsimp only
  by_cases c1 : st.F i j = 1
  · have hnp1 : ¬C i j := fun hc => by
      have := (hInv i j hpq.1 hpq.2.1 hc).1
      rw [this] at c1
      exact absurd c1.symm (by norm_num)
    rw [if_pos c1]
    by_cases c2 : st.F i (j + 1) = 1
    · have hnp2 : ¬C i (j + 1) := fun hc => by
        have := (hInv i (j + 1) hpq.1 hpq.2.2 hc).1
        rw [this] at c2
        exact absurd c2.symm (by norm_num)
      rw [if_pos c2]
      have hM : FixInv s.Nx C v (asgSite12 s kr r i j st).A (asgSite12 s kr r i j st).F :=
        asgSite12_fix hOrb hInv hi2 hj1 hnp1 hnp2
      set stM : AsgSt := asgSite12 s kr r i j st with hMdef
      have hI : FixInv s.Nx C v
          (if stM.F i (j + 1) = 0 then asgSite3 s kr r i j stM else stM).A
          (if stM.F i (j + 1) = 0 then asgSite3 s kr r i j stM else stM).F := by
        split_ifs with c3
        · exact asgSite3_fix hOrb hM hi2 (by omega) hnp1
        · exact hM
      set stI : AsgSt := if stM.F i (j + 1) = 0 then asgSite3 s kr r i j stM else stM
      split_ifs with c4 c5
      · have hnp2b : ¬C i (j + 1) := hnp2
        exact asgSite4_fix hOrb hI hi2 hj1 hnp2b
      · exact hI
      · exact hI
    · rw [if_neg c2]
      have hI : FixInv s.Nx C v
          (if st.F i (j + 1) = 0 then asgSite3 s kr r i j st else st).A
          (if st.F i (j + 1) = 0 then asgSite3 s kr r i j st else st).F := by
        split_ifs with c3
        · exact asgSite3_fix hOrb hInv hi2 (by omega) hnp1
        · exact hInv
      set stI : AsgSt := if st.F i (j + 1) = 0 then asgSite3 s kr r i j st else st
        with hIdef
      split_ifs with c4 c5
      · have hnp2 : ¬C i (j + 1) := fun hc => by
          have := (hI i (j + 1) hpq.1 hpq.2.2 hc).1
          rw [this] at c5
          exact absurd c5.symm (by norm_num)
        exact asgSite4_fix hOrb hI hi2 hj1 hnp2
      · exact hI
      · exact hI
  · rw [if_neg c1]
    split_ifs with c4 c5
    · have hnp2 : ¬C i (j + 1) := fun hc => by
        have := (hInv i (j + 1) hpq.1 hpq.2.2 hc).1
        rw [this] at c5
        exact absurd c5.symm (by norm_num)
      exact asgSite4_fix hOrb hInv hi2 hj1 hnp2
    · exact hInv
    · exact hInv

/-- Generic fixed-cell preservation through `AssignGates`: every orbit-closed
cell set whose cells the reset matrices fix keeps its values through the
whole assignment sweep. -/
theorem assignGates_fix (s : KolamDraw) (C : ℕ → ℕ → Prop) (v : Mat)
    (krRef Kp Ki : ℚ) (r : ℕ → ℕ) (k : ℕ) (hOrb : OrbClosed s.Nx C)
    (hReset : FixInv s.Nx C v (ResetGateMatrix s).1 (ResetGateMatrix s).2) :
    FixInv s.Nx C v (AssignGates s krRef Kp Ki r k).A (AssignGates s krRef Kp Ki r k).F := by
  unfold AssignGates
  dsimp only
  have hfold : ∀ (l : List (ℕ × ℕ)), (∀ ij ∈ l, ij ∈ asgPairs s.Nx) →
      ∀ st : AsgSt, FixInv s.Nx C v st.A st.F →
      FixInv s.Nx C v (l.foldl (asgBody s krRef Kp Ki r) st).A
        (l.foldl (asgBody s krRef Kp Ki r) st).F := by
    intro l
    induction l with
    | nil => exact fun _ st h => h
    | cons a t ih =>
      intro hl st hInv
      rw [List.foldl_cons]
      refine ih (fun ij h2 => hl ij (List.mem_cons_of_mem _ h2)) _ ?_
      obtain ⟨i, j⟩ := a
      have hbnd := mem_asgPairs (hl (i, j) (List.mem_cons_self _ _))
      unfold asgBody
      dsimp only
      exact asgDispatch_fix s C v _ r i j _ hOrb (by omega) (by omega) (by omega)
        (by omega) hInv
  exact hfold _ (fun _ h => h) _ hReset

/-- `AssignGates` output satisfies the protected-cell invariant under the
diamond profile: border cells stay `CLOSED`/fixed, diagonal and
anti-diagonal cells stay `OPEN`/fixed. -/
theorem assignGates_protinv (s : KolamDraw) (krRef Kp Ki : ℚ) (r : ℕ → ℕ) (k : ℕ)
    (hb : s.boundary.isDiamond = true) :
    ProtInv s.Nx (AssignGates s krRef Kp Ki r k).A (AssignGates s krRef Kp Ki r k).F :=
  assignGates_fix s (ProtCell s.Nx) (fun p q => if borderCell s.Nx p q then 0 else 1)
    krRef Kp Ki r k (prot_orbClosed s.Nx) (reset_protinv s hb)

/-- `AssignGates` output satisfies the border invariant under every
boundary profile. -/
theorem assignGates_borderfix (s : KolamDraw) (krRef Kp Ki : ℚ) (r : ℕ → ℕ) (k : ℕ) :
    BorderFix s.Nx (AssignGates s krRef Kp Ki r k).A (AssignGates s krRef Kp Ki r k).F :=
  assignGates_fix s (borderCell s.Nx) (fun _ _ => 0) krRef Kp Ki r k
    (border_orbClosed s.Nx) (reset_borderfix s)

/-- Pair-predicate propagation through the `Dice` loop: each trial leaves
the session matrices equal to an `AssignGates` output, so any property of
every `AssignGates` output holds of the final session pair. -/
theorem diceLoop_PAF (s : KolamDraw) (krRef Kp Ki : ℚ) (r : ℕ → ℕ)
    (P : Mat → Mat → Prop)
    (hP : ∀ k, P (AssignGates s krRef Kp Ki r k).A (AssignGates s krRef Kp Ki r k).F) :
    ∀ fuel ith st out, P st.A st.F →
      diceLoop s krRef Kp Ki r ith fuel st = some out → P out.A out.F := by
  intro fuel
  induction fuel with
  | zero =>
    intro ith st out hA h
    simp only [diceLoop] at h
    obtain rfl := Option.some.injEq .. ▸ h
    exact hA
  | succ n ih =>
    intro ith st out hA h
    simp only [diceLoop] at h
    cases htr : traceCycle
        { s with A := (AssignGates s krRef Kp Ki r st.k).A,
                 F := (AssignGates s krRef Kp Ki r st.k).F } 1 1 with
    | none => rw [htr] at h; cases h
    | some isx =>
      rw [htr] at h
      dsimp only at h
      have hA2 := hP st.k
      split_ifs at h
      all_goals try (cases h
                     all_goals try simp only [DiceSt.out]
                     all_goals try dsimp only
                     all_goals try split_ifs
                     all_goals exact hA2)
      all_goals try (refine ih _ _ _ ?_ h
                     all_goals try dsimp only
                     all_goals try split_ifs
                     all_goals exact hA2)

theorem dice_PAF (s : KolamDraw) (krRef Kp Ki : ℚ) (Nthr : ℕ) (r : ℕ → ℕ) (k : ℕ)
    (P : Mat → Mat → Prop)
    (hP : ∀ k2, P (AssignGates s krRef Kp Ki r k2).A (AssignGates s krRef Kp Ki r k2).F)
    (hA : P s.A s.F) (out : DiceOut)
    (h : Dice s krRef Kp Ki Nthr r k = some out) : P out.A out.F :=
  diceLoop_PAF s krRef Kp Ki r P hP Nthr 0 _ out hA h

/-- `SwitchGate` at an in-quadrant gate group never writes a border cell. -/
theorem switchGate_borderfix (s : KolamDraw) (A F : Mat) (ig jg : ℕ)
    (h1 : 1 ≤ ig) (h2 : ig ≤ jg) (h3 : ig + jg ≤ s.Nx - 2)
    (hb : BorderFix s.Nx A F) :
    BorderFix s.Nx (SwitchGate { s with A := A, F := F } ig jg).1
      (SwitchGate { s with A := A, F := F } ig jg).2.1 := by
  intro p q hp hq hc
  have hbc : p = 0 ∨ p = s.Nx - 1 ∨ q = 0 ∨ q = s.Nx - 1 := hc
  have hNx : 4 ≤ s.Nx := by
    unfold KolamDraw.Nx at h3 ⊢
    omega
  have hmiss : ¬((p = ig ∧ q = jg) ∨ (p = jg ∧ q = ig) ∨
      (p = s.Nx - ig - 1 ∧ q = s.Nx - jg - 1) ∨
      (p = s.Nx - jg - 1 ∧ q = s.Nx - ig - 1)) := by omega
  obtain ⟨hF0, hA0⟩ := hb p q hp hq hc
  unfold SwitchGate
  simp only [KolamDraw.Nx] at hmiss ⊢
  split_ifs
  · constructor
    · dsimp only
      rw [mset4_miss hmiss]
      exact hF0
    · dsimp only
      rw [mset4_miss hmiss]
      exact hA0
  · constructor
    · dsimp only
      rw [mset4_miss hmiss]
      exact hF0
    · dsimp only
      rw [mset4_miss hmiss]
      exact hA0
  · exact ⟨hF0, hA0⟩

/-- Generic invariant propagation through the `IterFlipTestSwitch`
iteration loop. -/
theorem iterLoop_Q (s : KolamDraw) (ksh : ℚ) (iL iH : ℕ) (r : ℕ → ℕ)
    (Q : Mat → Mat → Prop)
    (hQ : ∀ (A F : Mat) (ig jg : ℕ), 1 ≤ ig → ig ≤ jg → ig + jg ≤ s.Nx - 2 →
      Q A F →
      Q (SwitchGate { s with A := A, F := F } ig jg).1
        (SwitchGate { s with A := A, F := F } ig jg).2.1) :
    ∀ n st st2, Q st.A st.F → iterLoop s ksh iL iH r n st = some st2 →
      Q st2.A st2.F := by
  intro n
  induction n with
  | zero =>
    intro st st2 hst h
    simp only [iterLoop] at h
    obtain rfl := Option.some.injEq .. ▸ h
    exact hst
  | succ m ih =>
    intro st st2 hst h
    simp only [iterLoop] at h
    cases hf : FlipTestSwitch { s with A := st.A, F := st.F } ksh iL iH r st.k with
    | none => rw [hf] at h; cases h
    | some stm =>
      rw [hf] at h
      dsimp only at h
      have hm : Q stm.A stm.F :=
        flipTestSwitch_Q { s with A := st.A, F := st.F } ksh iL iH r st.k Q
          (fun A2 F2 ig jg g1 g2 g3 hq => hQ A2 F2 ig jg g1 g2 g3 hq) stm hst hf
      split_ifs at h
      · obtain rfl := Option.some.injEq .. ▸ h
        exact hm
      · refine ih _ _ ?_ h
        exact hm

/-- Generic invariant propagation through one `IterFlipTestSwitch` call. -/
theorem iterFlip_Q (s : KolamDraw) (ksh : ℚ) (Niter iL iH : ℕ) (r : ℕ → ℕ) (k : ℕ)
    (Q : Mat → Mat → Prop)
    (hQ : ∀ (A F : Mat) (ig jg : ℕ), 1 ≤ ig → ig ≤ jg → ig + jg ≤ s.Nx - 2 →
      Q A F →
      Q (SwitchGate { s with A := A, F := F } ig jg).1
        (SwitchGate { s with A := A, F := F } ig jg).2.1)
    (out : FlipSt) (hst : Q s.A s.F)
    (h : IterFlipTestSwitch s ksh Niter iL iH r k = some out) : Q out.A out.F := by
  unfold IterFlipTestSwitch at h
  cases hPC : PathCount s r k with
  | none => rw [hPC] at h; cases h
  | some Ncx =>
    rw [hPC] at h
    dsimp only at h
    split_ifs at h
    · exact iterLoop_Q s ksh iL iH r Q hQ Niter _ out hst h
    · obtain rfl := Option.some.injEq .. ▸ h
      exact hst

/-! ### Claim C2: border / diagonal fixed-point under the call sequence -/

/-- The all-`999` raw random stream (every `toss` with bias below `999/1000`
returns `1`). -/
def r9 : ℕ → ℕ := fun _ => 999

/-- Raw random stream whose first draw is `0` and whose later draws are
`999`. -/
def rAlt : ℕ → ℕ := fun n => if n = 0 then 0 else 999

/-- The session right after `ResetGateMatrix` has stored its result into
`self.A` / `self.F`. -/
def resetSession (s : KolamDraw) : KolamDraw :=
  { s with A := (ResetGateMatrix s).1, F := (ResetGateMatrix s).2 }

/-- One mutating call of the claimed sequence on the session matrices: the
session keeps its `ND` and boundary profile, only `A` / `F` evolve.  The
`Option`-valued stages must return (`none` would abort the Python run with
an `IndexError`). -/
inductive SeqStep (s0 : KolamDraw) : Mat × Mat → Mat × Mat → Prop where
  | assign (AF : Mat × Mat) (krRef Kp Ki : ℚ) (r : ℕ → ℕ) (k : ℕ) :
      SeqStep s0 AF
        ((AssignGates { s0 with A := AF.1, F := AF.2 } krRef Kp Ki r k).A,
         (AssignGates { s0 with A := AF.1, F := AF.2 } krRef Kp Ki r k).F)
  | dice (AF : Mat × Mat) (krRef Kp Ki : ℚ) (Nthr : ℕ) (r : ℕ → ℕ) (k : ℕ)
      (out : DiceOut)
      (h : Dice { s0 with A := AF.1, F := AF.2 } krRef Kp Ki Nthr r k = some out) :
      SeqStep s0 AF (out.A, out.F)
  | flip (AF : Mat × Mat) (ksh : ℚ) (iL iH : ℕ) (r : ℕ → ℕ) (k : ℕ) (out : FlipSt)
      (h : FlipTestSwitch { s0 with A := AF.1, F := AF.2 } ksh iL iH r k = some out) :
      SeqStep s0 AF (out.A, out.F)
  | iter (AF : Mat × Mat) (ksh : ℚ) (Niter iL iH : ℕ) (r : ℕ → ℕ) (k : ℕ)
      (out : FlipSt)
      (h : IterFlipTestSwitch { s0 with A := AF.1, F := AF.2 } ksh Niter iL iH r k
        = some out) :
      SeqStep s0 AF (out.A, out.F)

/-- A finite chain of `SeqStep` calls. -/
inductive SeqCalls (s0 : KolamDraw) : Mat × Mat → Mat × Mat → Prop where
  | refl (AF : Mat × Mat) : SeqCalls s0 AF AF
  | step {AF1 AF2 AF3 : Mat × Mat} (hs : SeqCalls s0 AF1 AF2)
      (h : SeqStep s0 AF2 AF3) : SeqCalls s0 AF1 AF3

/-- A finite chain of `AssignGates` / `Dice` calls only (no optimizer
sweeps). -/
inductive SeqAD (s0 : KolamDraw) : Mat × Mat → Mat × Mat → Prop where
  | refl (AF : Mat × Mat) : SeqAD s0 AF AF
  | assign {AF1 AF2 : Mat × Mat} (hs : SeqAD s0 AF1 AF2) (krRef Kp Ki : ℚ)
      (r : ℕ → ℕ) (k : ℕ) :
      SeqAD s0 AF1
        ((AssignGates { s0 with A := AF2.1, F := AF2.2 } krRef Kp Ki r k).A,
         (AssignGates { s0 with A := AF2.1, F := AF2.2 } krRef Kp Ki r k).F)
  | dice {AF1 AF2 : Mat × Mat} (hs : SeqAD s0 AF1 AF2) (krRef Kp Ki : ℚ)
      (Nthr : ℕ) (r : ℕ → ℕ) (k : ℕ) (out : DiceOut)
      (h : Dice { s0 with A := AF2.1, F := AF2.2 } krRef Kp Ki Nthr r k = some out) :
      SeqAD s0 AF1 (out.A, out.F)

theorem seqStep_borderfix {s0 : KolamDraw} {AF1 AF2 : Mat × Mat}
    (h : SeqStep s0 AF1 AF2) (hb : BorderFix s0.Nx AF1.1 AF1.2) :
    BorderFix s0.Nx AF2.1 AF2.2 := by
  cases h with
  | assign krRef Kp Ki r k =>
    exact assignGates_borderfix { s0 with A := AF1.1, F := AF1.2 } krRef Kp Ki r k
  | dice krRef Kp Ki Nthr r k out h =>
    exact dice_PAF { s0 with A := AF1.1, F := AF1.2 } krRef Kp Ki Nthr r k
      (BorderFix s0.Nx)
      (fun k2 => assignGates_borderfix { s0 with A := AF1.1, F := AF1.2 } krRef Kp Ki r k2)
      hb out h
  | flip ksh iL iH r k out h =>
    exact flipTestSwitch_Q { s0 with A := AF1.1, F := AF1.2 } ksh iL iH r k
      (BorderFix s0.Nx)
      (fun A2 F2 ig jg g1 g2 g3 hq => switchGate_borderfix s0 A2 F2 ig jg g1 g2 g3 hq)
      out hb h
  | iter ksh Niter iL iH r k out h =>
    exact iterFlip_Q { s0 with A := AF1.1, F := AF1.2 } ksh Niter iL iH r k
      (BorderFix s0.Nx)
      (fun A2 F2 ig jg g1 g2 g3 hq => switchGate_borderfix s0 A2 F2 ig jg g1 g2 g3 hq)
      out hb h

theorem seqCalls_borderfix {s0 : KolamDraw} {AF1 AF2 : Mat × Mat}
    (h : SeqCalls s0 AF1 AF2) (hb : BorderFix s0.Nx AF1.1 AF1.2) :
    BorderFix s0.Nx AF2.1 AF2.2 := by
  induction h with
  | refl => exact hb
  | step hs hstep ih => exact seqStep_borderfix hstep ih

theorem seqAD_protinv {s0 : KolamDraw} (hdia : s0.boundary.isDiamond = true)
    {AF1 AF2 : Mat × Mat} (h : SeqAD s0 AF1 AF2)
    (hb : ProtInv s0.Nx AF1.1 AF1.2) : ProtInv s0.Nx AF2.1 AF2.2 := by
  induction h with
  | refl => exact hb
  | assign hs krRef Kp Ki r k ih =>
    exact assignGates_protinv _ krRef Kp Ki r k hdia
  | dice hs krRef Kp Ki Nthr r k out hD ih =>
    rename_i AF2m
    refine dice_PAF { s0 with A := AF2m.1, F := AF2m.2 } krRef Kp Ki Nthr r k
      (ProtInv s0.Nx)
      (fun k2 => assignGates_protinv { s0 with A := AF2m.1, F := AF2m.2 }
        krRef Kp Ki r k2 hdia) ?_ out hD
    exact ih

/-- C2 (amended): after `ResetGateMatrix`, every border cell of `A` holds
`CLOSED` (`0`, with `F = 0`) and keeps that value across every further
`AssignGates` / `Dice` / `FlipTestSwitch` / `IterFlipTestSwitch` call, for
every `ND` and boundary profile; under the diamond profile the diagonal and
anti-diagonal cells hold `OPEN` (`1`) after reset and keep it across
`AssignGates` / `Dice` calls.  (The original claim also asserted diagonal
preservation across optimizer sweeps; that part is false: `FlipTestSwitch`
toggles gate groups whose flag is `0`, which includes the fixed diagonal
cells — see the counterexample.) -/
theorem C2_amended_border_diag :
    (∀ (s0 : KolamDraw) (AF : Mat × Mat),
      SeqCalls s0 ((ResetGateMatrix s0).1, (ResetGateMatrix s0).2) AF →
      ∀ p q, p < s0.Nx → q < s0.Nx → borderCell s0.Nx p q →
        AF.1 p q = 0 ∧ AF.2 p q = 0) ∧
    (∀ s0 : KolamDraw, s0.boundary.isDiamond = true →
      ∀ AF : Mat × Mat,
      SeqAD s0 ((ResetGateMatrix s0).1, (ResetGateMatrix s0).2) AF →
      ∀ i, 1 ≤ i → i ≤ s0.Nx - 2 →
        AF.1 i i = 1 ∧ AF.1 i (s0.Nx - 1 - i) = 1) := by
  constructor
  · intro s0 AF hseq p q hp hq hc
    have hfix := seqCalls_borderfix hseq (reset_borderfix s0) p q hp hq hc
    exact ⟨hfix.2, hfix.1⟩
  · intro s0 hdia AF hseq i h1 h2
    have hfix := seqAD_protinv hdia hseq (reset_protinv s0 hdia)
    have hNx : 3 ≤ s0.Nx := by omega
    have hd := hfix i i (by omega) (by omega) (Or.inr (Or.inl rfl))
    have ha := hfix i (s0.Nx - 1 - i) (by omega) (by omega)
      (Or.inr (Or.inr (by omega)))
    have hnb1 : ¬borderCell s0.Nx i i := by
      unfold borderCell
      omega
    have hnb2 : ¬borderCell s0.Nx i (s0.Nx - 1 - i) := by
      unfold borderCell
      omega
    constructor
    · rw [hd.2, if_neg hnb1]
    · rw [ha.2, if_neg hnb2]

/-- C2 counterexample: at `ND = 5` under the diamond profile, the
main-diagonal cell `(1, 1)` holds `OPEN` (`1`) after `ResetGateMatrix`, yet
after one `Dice` trial followed by one `FlipTestSwitch` sweep (raw random
stream constantly `999`) the session holds `0` there — the optimizer closed
a main-diagonal cell and kept the toggle. -/
theorem C2_counterexample :
    (ResetGateMatrix (KolamDraw.init 5 Boundary.diamond)).1 1 1 = 1 ∧
    ((Dice (resetSession (KolamDraw.init 5 Boundary.diamond)) 0 (1 / 100) (1 / 10000)
        1 r9 0).bind
      (fun d =>
        (FlipTestSwitch { KolamDraw.init 5 Boundary.diamond with A := d.A, F := d.F }
          (1 / 2) 1 3 r9 d.k).map (fun o => o.A 1 1))) = some 0 :=
  ⟨by decide, by decide⟩

/-- Witness for `C2_amended_border_diag` at `ND = 5` under the diamond
profile and the empty call sequence. -/
theorem C2_witness :
    ((ResetGateMatrix (KolamDraw.init 5 Boundary.diamond)).1 0 0 = 0 ∧
     (ResetGateMatrix (KolamDraw.init 5 Boundary.diamond)).2 0 0 = 0) ∧
    ((ResetGateMatrix (KolamDraw.init 5 Boundary.diamond)).1 1 1 = 1 ∧
     (ResetGateMatrix (KolamDraw.init 5 Boundary.diamond)).1 1 4 = 1) :=
  ⟨C2_amended_border_diag.1 (KolamDraw.init 5 Boundary.diamond) _ (SeqCalls.refl _)
      0 0 (by decide) (by decide) (Or.inl rfl),
   C2_amended_border_diag.2 (KolamDraw.init 5 Boundary.diamond) (by decide) _
      (SeqAD.refl _) 1 (by decide) (by decide)⟩

/-! ### Claim C7: PathCount termination and result range -/

theorem pcLoop_le (s : KolamDraw) (i0 j0 : ℤ) :
    ∀ (fuel : ℕ) (cur : ℤ × ℤ × ℤ) (isa n : ℕ),
      pcLoop s i0 j0 fuel cur isa = some n → n = 0 ∨ n ≤ isa + fuel := by
  intro fuel
  induction fuel with
  | zero =>
    intro cur isa n h
    simp only [pcLoop] at h
    obtain rfl := Option.some.injEq .. ▸ h
    exact Or.inl rfl
  | succ m ih =>
    intro cur isa n h
    simp only [pcLoop] at h
    cases hs : NextStep s cur.1 cur.2.1 cur.2.2 with
    | none => rw [hs] at h; cases h
    | some v =>
      rw [hs] at h
      obtain ⟨ing, jng, ne, p1, p2⟩ := v
      dsimp only at h
      split_ifs at h
      · obtain rfl := Option.some.injEq .. ▸ h
        right
        omega
      · rcases ih _ _ _ h with h0 | hle
        · exact Or.inl h0
        · right
          omega

/-- C7 (amended): whenever `PathCount` returns (instead of raising
`IndexError` on an out-of-range gate lookup), the returned cycle length is
at most `Ns = (2*ND^2 + 1)*5`, and the randomized start position is one of
the four diagonal corners `(±1, ±1)`.  (The original unconditional
termination claim is false: the path automaton can walk out of the matrix
and crash `PathCount`, see the counterexample.) -/
theorem C7_amended_pathcount (s : KolamDraw) (r : ℕ → ℕ) (k n : ℕ)
    (h : PathCount s r k = some n) :
    n ≤ s.Ns ∧
    ((pcStart r k).1 = -1 ∨ (pcStart r k).1 = 1) ∧
    ((pcStart r k).2 = -1 ∨ (pcStart r k).2 = 1) := by
  refine ⟨?_, ?_, ?_⟩
  · unfold PathCount traceCycle at h
    rcases pcLoop_le s _ _ _ _ _ _ h with h0 | hle
    · omega
    · omega
  · unfold pcStart
    dsimp only
    rcases Nat.mod_two_eq_zero_or_one (r k) with h2 | h2
    · rw [h2]
      left
      norm_num
    · rw [h2]
      right
      norm_num
  · unfold pcStart
    dsimp only
    rcases Nat.mod_two_eq_zero_or_one (r (k + 1)) with h2 | h2
    · rw [h2]
      left
      norm_num
    · rw [h2]
      right
      norm_num

/-- C7 counterexample: on the all-`1` gate matrix at `ND = 5`, `PathCount`
raises `IndexError` (modelled `none`): the path leaves the matrix instead
of terminating with a count. -/
theorem C7_counterexample :
    PathCount { KolamDraw.init 5 Boundary.diamond with
      A := fun _ _ => 1, F := fun _ _ => 1 } r9 0 = none := by
  decide

/-- Witness for `C7_amended_pathcount`: the freshly reset `ND = 5` diamond
session yields `PathCount = some 12` from the corner `(1, 1)`. -/
theorem C7_witness :
    12 ≤ (resetSession (KolamDraw.init 5 Boundary.diamond)).Ns ∧
    ((pcStart r9 0).1 = -1 ∨ (pcStart r9 0).1 = 1) ∧
    ((pcStart r9 0).2 = -1 ∨ (pcStart r9 0).2 = 1) :=
  C7_amended_pathcount (resetSession (KolamDraw.init 5 Boundary.diamond)) r9 0 12
    (by decide)

/-! ### Claim C4: the optimizer's toggle guard tests `F == 0`, not `F == 1` -/

theorem flipInner_evs (s : KolamDraw) (ksh : ℚ) (r : ℕ → ℕ) (ig : ℕ) (l : List ℕ) :
    ∀ st st2, (∀ e ∈ st.evs, e.Fval = 0) → flipInner s ksh r ig st l = some st2 →
      ∀ e ∈ st2.evs, e.Fval = 0 := by
  induction l with
  | nil =>
    intro st st2 hst h
    simp only [flipInner] at h
    obtain rfl := Option.some.injEq .. ▸ h
    exact hst
  | cons jg rest ih =>
    intro st st2 hst h
    simp only [flipInner] at h
    by_cases hF : st.F ig jg = 0
    · rw [if_pos hF] at h
      by_cases ht : toss ksh (r st.k) = 1
      · rw [if_pos ht] at h
        set stg := SwitchGate { s with A := st.A, F := st.F } ig jg with hg
        have hst2 : ∀ e ∈ st.evs ++ [(⟨ig, jg, st.F ig jg⟩ : FlipEv)], e.Fval = 0 := by
          intro e he
          rcases List.mem_append.1 he with he1 | he2
          · exact hst e he1
          · rw [List.mem_singleton.1 he2]
            exact hF
        cases hPC : PathCount { s with A := stg.1, F := stg.2.1 } r (st.k + 1) with
        | none => rw [hPC] at h; cases h
        | some Nc =>
          rw [hPC] at h
          dsimp only at h
          by_cases hlt : Nc < st.Ncx
          · rw [if_pos hlt] at h
            dsimp only at h
            split_ifs at h with hbr
            · obtain rfl := Option.some.injEq .. ▸ h
              exact hst2
            · refine ih _ _ ?_ h
              exact hst2
          · rw [if_neg hlt] at h
            dsimp only at h
            split_ifs at h with hbr
            · obtain rfl := Option.some.injEq .. ▸ h
              exact hst2
            · refine ih _ _ ?_ h
              exact hst2
      · rw [if_neg ht] at h
        dsimp only at h
        split_ifs at h with hbr
        · obtain rfl := Option.some.injEq .. ▸ h
          exact hst
        · refine ih _ _ ?_ h
          exact hst
    · rw [if_neg hF] at h
      dsimp only at h
      split_ifs at h with hbr
      · obtain rfl := Option.some.injEq .. ▸ h
        exact hst
      · refine ih _ _ ?_ h
        exact hst

theorem flipOuter_evs (s : KolamDraw) (ksh : ℚ) (r : ℕ → ℕ) (l : List ℕ) :
    ∀ st st2, (∀ e ∈ st.evs, e.Fval = 0) → flipOuter s ksh r st l = some st2 →
      ∀ e ∈ st2.evs, e.Fval = 0 := by
  induction l with
  | nil =>
    intro st st2 hst h
    simp only [flipOuter] at h
    obtain rfl := Option.some.injEq .. ▸ h
    exact hst
  | cons ig rest ih =>
    intro st st2 hst h
    simp only [flipOuter] at h
    cases hin : flipInner s ksh r ig st (List.range' ig (s.Nx - 1 - 2 * ig)) with
    | none => rw [hin] at h; cases h
    | some stm =>
      rw [hin] at h
      exact ih stm st2 (flipInner_evs s ksh r ig _ st stm hst hin) h

/-- C4 (amended): during one optimizer sweep, every `SwitchGate` toggle is
performed at a gate group whose flag is `0` — i.e. a group that was already
permanently fixed — never at a still-flexible group (`F == 1`).  (The
guard in the source is `self.F[ig, jg] == 0 and self.toss(ksh) == 1`,
the negation of the claimed `F == 1` test; the counterexample below shows a
fixed group being toggled.) -/
theorem C4_amended_flip_guard (s : KolamDraw) (ksh : ℚ) (iL iH : ℕ) (r : ℕ → ℕ)
    (k : ℕ) (out : FlipSt) (h : FlipTestSwitch s ksh iL iH r k = some out) :
    ∀ e ∈ out.evs, e.Fval = 0 := by
  unfold FlipTestSwitch at h
  cases hPC : PathCount s r k with
  | none => rw [hPC] at h; cases h
  | some Ncx =>
    rw [hPC] at h
    dsimp only at h
    exact flipOuter_evs s ksh r _ _ out (by intro e he; cases he) h

/-- C4 counterexample: at `ND = 5` with `A ≡ 0`, `F ≡ 0` (every group
permanently fixed, none flexible) and raw stream `999`, the sweep still
toggles the group `(1, 1)`: the session value changes from `0` to `1`. -/
theorem C4_counterexample :
    ({ KolamDraw.init 5 Boundary.diamond with
        A := fun _ _ => 0, F := fun _ _ => 0 } : KolamDraw).F 1 1 = 0 ∧
    ((FlipTestSwitch { KolamDraw.init 5 Boundary.diamond with
        A := fun _ _ => 0, F := fun _ _ => 0 } (1 / 2) 1 3 r9 0).map
      (fun o => o.A 1 1)) = some 1 :=
  ⟨rfl, by decide⟩

/-- Witness for `C4_amended_flip_guard`: an `ND = 1` sweep with toggle
probability `0` returns with an empty toggle log, vacuously satisfying the
guard property. -/
theorem C4_witness :
    ({ KolamDraw.init 1 Boundary.diamond with
        A := fun _ _ => 0, F := fun _ _ => 0 } : KolamDraw).Nx = 2 ∧
    ∀ e ∈ ({ A := fun _ _ => 0, F := fun _ _ => 0, Ncx := 4, k := 2, evs := [] } : FlipSt).evs,
      e.Fval = 0 :=
  ⟨rfl,
   C4_amended_flip_guard
     { KolamDraw.init 1 Boundary.diamond with A := fun _ _ => 0, F := fun _ _ => 0 }
     1 1 3 r9 0 _ (by rfl)⟩

/-! ### Claim C3: what Dice hands to the next stage versus the best trial -/

theorem bestInv_append_better {recs : List (Mat × ℕ)} {ismax isx : ℕ} {A : Mat}
    (h1 : ∀ rec ∈ recs, rec.2 ≤ ismax) (hgt : ismax < isx) :
    (∀ rec ∈ recs ++ [(A, isx)], rec.2 ≤ isx) ∧
    ((A, isx) ∈ recs ++ [(A, isx)] ∨ isx = 0) := by
  constructor
  · intro rec hr
    rcases List.mem_append.1 hr with hr1 | hr2
    · exact le_trans (h1 rec hr1) (le_of_lt hgt)
    · rw [List.mem_singleton.1 hr2]
  · exact Or.inl (List.mem_append.2 (Or.inr (List.mem_singleton.2 rfl)))

theorem bestInv_append_worse {recs : List (Mat × ℕ)} {ismax isx : ℕ} {A Amax : Mat}
    (h1 : ∀ rec ∈ recs, rec.2 ≤ ismax) (h2 : (Amax, ismax) ∈ recs ∨ ismax = 0)
    (hle : isx ≤ ismax) :
    (∀ rec ∈ recs ++ [(A, isx)], rec.2 ≤ ismax) ∧
    ((Amax, ismax) ∈ recs ++ [(A, isx)] ∨ ismax = 0) := by
  constructor
  · intro rec hr
    rcases List.mem_append.1 hr with hr1 | hr2
    · exact h1 rec hr1
    · rw [List.mem_singleton.1 hr2]
      exact hle
  · rcases h2 with h2 | h2
    · exact Or.inl (List.mem_append.2 (Or.inl h2))
    · exact Or.inr h2

/-- The best-trial invariant of the `Dice` loop: every recorded trial's
cycle length is at most `ismax`, and (once a trial closed) the pair
`(Amax, ismax)` is itself one of the recorded trials. -/
theorem diceLoop_best (s : KolamDraw) (krRef Kp Ki : ℚ) (r : ℕ → ℕ) :
    ∀ fuel ith st out,
      (∀ rec ∈ st.recs, rec.2 ≤ st.ismax) →
      ((st.Amax, st.ismax) ∈ st.recs ∨ st.ismax = 0) →
      diceLoop s krRef Kp Ki r ith fuel st = some out →
      (∀ rec ∈ out.recs, rec.2 ≤ out.ismax) ∧
      ((out.Amax, out.ismax) ∈ out.recs ∨ out.ismax = 0) := by
  intro fuel
  induction fuel with
  | zero =>
    intro ith st out h1 h2 h
    simp only [diceLoop] at h
    obtain rfl := Option.some.injEq .. ▸ h
    exact ⟨h1, h2⟩
  | succ n ih =>
    intro ith st out h1 h2 h
    simp only [diceLoop] at h
    cases htr : traceCycle
        { s with A := (AssignGates s krRef Kp Ki r st.k).A,
                 F := (AssignGates s krRef Kp Ki r st.k).F } 1 1 with
    | none => rw [htr] at h; cases h
    | some isx =>
      rw [htr] at h
      dsimp only at h
      by_cases c0 : isx = 0
      · rw [if_pos c0, if_neg (by norm_num)] at h
        refine ih _ _ _ ?_ ?_ h
        · exact h1
        · exact h2
      · rw [if_neg c0, if_pos rfl] at h
        by_cases c1 : (isx : ℤ) < (s.Ns : ℤ) + 2
        · rw [if_pos c1] at h
          by_cases c2 : isx > st.ismax
          · rw [if_pos c2] at h
            have hinv := bestInv_append_better
              (A := (AssignGates s krRef Kp Ki r st.k).A) h1 c2
            split_ifs at h
            · obtain rfl := Option.some.injEq .. ▸ h
              exact ⟨hinv.1, hinv.2⟩
            · refine ih _ _ _ ?_ ?_ h
              · exact hinv.1
              · exact hinv.2
          · rw [if_neg c2] at h
            have hle : isx ≤ st.ismax := by omega
            have hinv := bestInv_append_worse
              (A := (AssignGates s krRef Kp Ki r st.k).A) h1 h2 hle
            split_ifs at h
            · obtain rfl := Option.some.injEq .. ▸ h
              exact ⟨hinv.1, hinv.2⟩
            · refine ih _ _ _ ?_ ?_ h
              · exact hinv.1
              · exact hinv.2
        · rw [if_neg c1] at h
          split_ifs at h
          · obtain rfl := Option.some.injEq .. ▸ h
            exact ⟨h1, h2⟩
          · refine ih _ _ _ ?_ ?_ h
            · exact h1
            · exact h2

/-- C3 (amended): the best-seen snapshot pair `(Amax, ismax)` returned by
`Dice` is the candidate with the largest cycle length among all recorded
trials — but it is *not* what the session hands to the subsequent stages:
the session keeps the *last* trial's matrix (see the counterexample, where
the handed-on matrix re-measures at cycle length 12 while a recorded trial
achieved 52). -/
theorem C3_amended_dice_best (s : KolamDraw) (krRef Kp Ki : ℚ) (Nthr : ℕ)
    (r : ℕ → ℕ) (k : ℕ) (out : DiceOut)
    (h : Dice s krRef Kp Ki Nthr r k = some out) :
    (∀ rec ∈ out.recs, rec.2 ≤ out.ismax) ∧
    (out.ismax ≠ 0 → (out.Amax, out.ismax) ∈ out.recs) := by
  have hb := diceLoop_best s krRef Kp Ki r Nthr 0 _ out
    (by intro rec hr; cases hr) (Or.inr rfl) h
  exact ⟨hb.1, fun hne => hb.2.resolve_right hne⟩

/-- C3 counterexample: a two-trial `Dice` run (`ND = 5`, diamond, stream
`rAlt`) whose first trial achieves cycle length 52 and whose second
achieves 12: the session matrix handed onward re-measures at 12, not at
the largest recorded length `ismax = 52`. -/
theorem C3_counterexample :
    ((Dice (resetSession (KolamDraw.init 5 Boundary.diamond)) (1 / 2) (1 / 100)
        (1 / 10000) 2 rAlt 0).map
      (fun d =>
        (traceCycle { KolamDraw.init 5 Boundary.diamond with A := d.A, F := d.F } 1 1,
         d.ismax))) = some (some 12, 52) := by
  decide

/-- The fallback record for reading off a concrete `Dice` output. -/
def diceOutDefault : DiceOut :=
  { A := fun _ _ => 0, F := fun _ _ => 0, Amax := fun _ _ => 0, isx := 0, ithx := 0,
    ismax := 0, Flag1 := 0, Flag2 := 0, krx := [], k := 0, recs := [] }

/-- The concrete single-trial `Dice` output used to witness C3. -/
def diceOutW : DiceOut :=
  (Dice (resetSession (KolamDraw.init 5 Boundary.diamond)) 0 (1 / 100) (1 / 10000)
    1 r9 0).getD diceOutDefault

/-- Witness for `C3_amended_dice_best` on a concrete one-trial run. -/
theorem C3_witness :
    (∀ rec ∈ diceOutW.recs, rec.2 ≤ diceOutW.ismax) ∧
    (diceOutW.ismax ≠ 0 → (diceOutW.Amax, diceOutW.ismax) ∈ diceOutW.recs) :=
  C3_amended_dice_best (resetSession (KolamDraw.init 5 Boundary.diamond)) 0 (1 / 100)
    (1 / 10000) 1 r9 0 diceOutW (by rfl)

/-! ### Claim C8: the served `is_one_stroke` verdict -/

/-- C8 (code bug): `generate_kolam_base64` serves `is_one_stroke: Ncx == 1`,
not the spec's near-maximal threshold `Ncx ≥ Ns - 5`.  At `ND = 5`
(`Ns = 255`) an achieved cycle length of 250 meets the threshold yet is
served `false`; indeed every near-maximal length (250..255) is served
`false`, so the two verdicts disagree on all one-stroke outcomes. -/
theorem C8_is_one_stroke_threshold :
    is_one_stroke 250 = false ∧
    (KolamDraw.init 5 Boundary.diamond).Ns - 5 ≤ 250 ∧
    responseFields 250 = (250, false) ∧
    is_one_stroke 255 = false :=
  ⟨rfl, by decide, rfl, rfl⟩

end Kolam
